import Mathlib

/-!
# Verification of the `wasm-inference` Bayesian-network engine

Shallow embedding of the Rust sources under `src/wasm-inference/src/`
(`lib.rs`, `serialize.rs`, `sample.rs`, `bit_set.rs`), followed by theorems
about the embedded definitions.

Modelling conventions:
* Rust `HashMap<String, V>` fields that arrive from the host are embedded as
  association lists `List (String × V)` looked up with `List.lookup`
  (first match; a `HashMap` has unique keys).
* Rust `HashSet` iteration order is unspecified; wherever the source iterates
  a hash collection we fix a concrete deterministic order (`List.dedup` of the
  encounter order).  The spec explicitly leaves these orders unspecified.
* Bytes are `Nat` values; every byte the encoder emits is `< 256`.
* An `f32` is embedded as its 32-bit IEEE754 bit pattern (a `Nat`);
  `f32::to_le_bytes` / `le_f32` move between the pattern and its four
  little-endian bytes.  No claim depends on float arithmetic, only on the
  bit-level classification used by `rand`'s `random_bool` panic check.
* The random generator is abstracted as an oracle stream `Nat → Bool` plus a
  position counter; one Bernoulli draw consumes one position.  No claim
  depends on the statistical relation between the drawn value and the
  probability.
* Rust panics that the claims mention are modelled as distinguished error
  constructors (`randomBoolPanic`); `debug_assert!` is modelled by returning
  the asserted data (the leftover input) to the caller.
-/

namespace WasmInference

/-- `CptEntry` from `lib.rs`: a map from parent id to `Option bool`
(`some true` / `some false` constrain the parent, `none` is a wildcard),
plus the probability that the node is true.  The probability is kept as the
IEEE754 bit pattern of the Rust `f32`. -/
structure CptEntry where
  parent_states : List (String × Option Bool)
  probability : Nat
  deriving DecidableEq

/-- `Node` from `lib.rs`. -/
structure Node where
  id : String
  cpt_entries : List CptEntry
  deriving DecidableEq

/-- `SerializedNetwork` from `serialize.rs`. -/
structure SerializedNetwork where
  data : List Nat
  topo_order : List String
  deriving DecidableEq

/-- The distinct `bail!` / panic sites of `serialize.rs`. -/
inductive EncodeError
  /-- "Network has {len} nodes, maximum 255 supported" -/
  | tooManyNodes
  /-- "Duplicate node IDs detected" -/
  | duplicateId
  /-- "Node {child} references parent {parent} which is not in the node array" -/
  | unknownParent
  /-- "Cycle detected in Bayesian network" -/
  | cycleDetected
  /-- "Network references undefined parent nodes" (post-sort length check) -/
  | undefinedParentNodes
  /-- `u8::try_from(idx).expect("Topo index exceeds u8::MAX")` (a panic) -/
  | indexOverflow
  /-- "Number of parents exceeds u8::MAX" -/
  | tooManyParents
  /-- "Number of CPT entries exceeds u8::MAX" -/
  | tooManyCptEntries
  /-- unreachable cache/lookup failures (`ok_or_else` on the caches) -/
  | internal
  deriving DecidableEq

/-- `get_node_parents` (serialize.rs:131): the union of all parent ids
mentioned by the node's CPT entries.  The Rust function collects them into a
`HashSet`; we keep the first-encounter order via `dedup`. -/
def get_node_parents (node : Node) : List String :=
  (node.cpt_entries.flatMap (fun e => e.parent_states.map Prod.fst)).dedup

/-- Lookup in the `nodes_by_id` map (serialize.rs:19): node ids are unique
when this is used, so the first hit is the only hit. -/
def nodesById (nodes : List Node) (id : String) : Option Node :=
  nodes.find? (fun n => n.id = id)

/-- The `parents_cache` entry for an id: the parents of the node with that id,
`[]` if the id names no node. -/
def nodeParents (nodes : List Node) (id : String) : List String :=
  match nodesById nodes id with
  | some n => get_node_parents n
  | none => []

/-- The children-adjacency of the Kahn graph (serialize.rs:81-96): the ids of
the nodes that list `p` as a parent.  The Rust code stores them in a
`HashSet`; node order is our deterministic stand-in for its iteration
order. -/
def childrenOf (nodes : List Node) (p : String) : List String :=
  (nodes.filter (fun n => p ∈ get_node_parents n)).map (fun n => n.id)

/-- The key set of the Rust `in_degree` map in insertion order: for each node
its id, then its parents (serialize.rs:84-96). -/
def allKahnIds (nodes : List Node) : List String :=
  (nodes.flatMap (fun n => n.id :: get_node_parents n)).dedup

/-- The fully-built `in_degree` map: a node's in-degree is its number of
(distinct) parents; ids that appear only as parents of others have degree
0. -/
def indeg0 (nodes : List Node) : String → Nat :=
  fun id => (nodeParents nodes id).length

/-- One pop of the Kahn work queue: decrement every child's in-degree and
enqueue the children whose degree reaches zero (serialize.rs:109-117). -/
def kahnFold (children : List String) (deg : String → Nat) (queue : List String) :
    (String → Nat) × List String :=
  children.foldl
    (fun (p : (String → Nat) × List String) c =>
      let d := p.1 c - 1
      (fun x => if x = c then d else p.1 x, if d = 0 then p.2 ++ [c] else p.2))
    (deg, queue)

/-- The `while let Some(node_id) = queue.pop_front()` loop
(serialize.rs:106-118), with fuel to make the recursion structural.
`kahnFuel` below always exceeds the possible number of iterations. -/
def kahnLoop (nodes : List Node) : Nat → List String → (String → Nat) → List String →
    List String
  | 0, _, _, result => result
  | _ + 1, [], _, result => result
  | fuel + 1, id :: qs, deg, result =>
      let st := kahnFold (childrenOf nodes id) deg qs
      kahnLoop nodes fuel st.2 st.1 (result ++ [id])

/-- Fuel bound for `kahnLoop` (a modelling artifact: the Rust `while` loop
has no fuel).  Each iteration strictly decreases
(queue length) + (sum of all in-degrees), which starts at most at
(number of in-degree keys) + (sum of all initial in-degrees), so this fuel is
never exhausted while the queue is non-empty. -/
def kahnFuel (nodes : List Node) : Nat :=
  (allKahnIds nodes).length + ((allKahnIds nodes).map (indeg0 nodes)).sum + 1

/-- The full Kahn run (serialize.rs:98-118): initial queue = the zero
in-degree keys, then the loop. -/
def kahnRun (nodes : List Node) : List String :=
  kahnLoop nodes (kahnFuel nodes)
    ((allKahnIds nodes).filter (fun id => indeg0 nodes id = 0)) (indeg0 nodes) []

/-- `topological_sort` (serialize.rs:77-129): Kahn's algorithm, then the two
length checks. -/
def topological_sort (nodes : List Node) : Except EncodeError (List String) :=
  let result := kahnRun nodes
  if result.length < nodes.length then .error .cycleDetected
  else if nodes.length < result.length then .error .undefinedParentNodes
  else .ok result

/-- `f32::to_le_bytes` on a 32-bit pattern: four little-endian bytes. -/
def leBytes4 (x : Nat) : List Nat :=
  [x % 256, x / 256 % 256, x / 256 / 256 % 256, x / 256 / 256 / 256 % 256]

/-- The loop body of `serialize_cpt_entry` (serialize.rs:186-201): parent
number `p.1` of the sorted parent list ORs its bits into byte `p.1 / 4`:
`Some(true)` sets constraint bit `p.1 % 4 + 4` and value bit `p.1 % 4`,
`Some(false)` sets only the constraint bit, `None` or an absent mapping
leaves the byte untouched. -/
def patternStep (entry : CptEntry) (bytes : List Nat) (p : Nat × String) : List Nat :=
  let byte_idx := p.1 / 4
  let bit_offset := p.1 % 4
  match entry.parent_states.lookup p.2 with
  | some (some true) =>
      bytes.set byte_idx
        ((bytes.getD byte_idx 0) ||| (1 <<< (bit_offset + 4)) ||| (1 <<< bit_offset))
  | some (some false) =>
      bytes.set byte_idx ((bytes.getD byte_idx 0) ||| (1 <<< (bit_offset + 4)))
  | _ => bytes

/-- The pattern-byte construction of `serialize_cpt_entry`
(serialize.rs:183-201): `ceil(num_parents / 4)` zero bytes, then one
`patternStep` per enumerated parent. -/
def patternBytesOf (entry : CptEntry) (parent_ids : List String) : List Nat :=
  let num_pattern_bytes := (parent_ids.length + 3) / 4
  parent_ids.enum.foldl (patternStep entry) (List.replicate num_pattern_bytes 0)

/-- `serialize_cpt_entry` (serialize.rs:182-205): pattern bytes, then the
probability's four little-endian bytes. -/
def serialize_cpt_entry (entry : CptEntry) (parent_ids : List String) : List Nat :=
  patternBytesOf entry parent_ids ++ leBytes4 entry.probability

/-- Key order for `sort_unstable_by_key(|(_, idx)| *idx)`. -/
def byTopoIdx (a b : String × Nat) : Prop := a.2 ≤ b.2

instance : DecidableRel byTopoIdx := fun a b => Nat.decLe a.2 b.2

instance : IsTotal (String × Nat) byTopoIdx := ⟨fun a b => Nat.le_total a.2 b.2⟩

instance : IsTrans (String × Nat) byTopoIdx := ⟨fun _ _ _ h h' => Nat.le_trans h h'⟩

/-- `serialize_node` (serialize.rs:143-180).  Rust's `sort_unstable_by_key`
is embedded as an insertion sort; the keys (topological indices of distinct
parents) are distinct whenever the encoder reaches this point, so any sorting
algorithm produces the same list. -/
def serialize_node (node : Node) (parent_ids : List String)
    (id_to_topo_index : String → Option Nat) : Except EncodeError (List Nat) := do
  let pairs ← parent_ids.mapM (fun id =>
    match id_to_topo_index id with
    | some idx => Except.ok (id, idx)
    | none => Except.error EncodeError.internal)
  let sorted_pairs := List.insertionSort byTopoIdx pairs
  let parent_indices := sorted_pairs.map Prod.snd
  let sorted_parent_ids := sorted_pairs.map Prod.fst
  if 255 < parent_indices.length then Except.error .tooManyParents
  else if 255 < node.cpt_entries.length then Except.error .tooManyCptEntries
  else
    Except.ok (parent_indices.length :: parent_indices
      ++ node.cpt_entries.length
        :: node.cpt_entries.flatMap (fun e => serialize_cpt_entry e sorted_parent_ids))

/-- `serialize_network` (serialize.rs:11-75): validation in source order
(size bound, duplicate ids, unknown parents), topological sort, then one
`serialize_node` per node in topological order. -/
def serialize_network (nodes : List Node) : Except EncodeError SerializedNetwork := do
  if 255 < nodes.length then Except.error .tooManyNodes
  else if (nodes.map (fun n => n.id)).dedup.length ≠ nodes.length then
    Except.error .duplicateId
  else if nodes.any (fun n =>
      (get_node_parents n).any (fun p => (nodesById nodes p).isNone)) then
    Except.error .unknownParent
  else do
    let topo_order ← topological_sort nodes
    if 256 < topo_order.length then Except.error .indexOverflow
    else do
      let id_to_topo_index : String → Option Nat := fun id => List.indexOf? id topo_order
      let buffer ← topo_order.foldlM (fun (acc : List Nat) id => do
        match nodesById nodes id with
        | none => Except.error EncodeError.internal
        | some node => do
            let bytes ← serialize_node node (get_node_parents node) id_to_topo_index
            Except.ok (acc ++ bytes)) []
      Except.ok ⟨buffer, topo_order⟩

/-! ## Bit-set (`bit_set.rs`) -/

/-- `BitSet` (bit_set.rs): 32 bytes, bit `v % 8` of byte `v / 8` records
membership of `v`. -/
structure BitSet where
  bytes : List Nat
  deriving DecidableEq

/-- `BitSet::new`. -/
def BitSet.new : BitSet := ⟨List.replicate 32 0⟩

/-- `BitSet::insert` (the returned `already_present` flag is unused by every
caller, so it is dropped here). -/
def BitSet.insert (s : BitSet) (v : Nat) : BitSet :=
  ⟨s.bytes.set (v / 8) ((s.bytes.getD (v / 8) 0) ||| (1 <<< (v % 8)))⟩

/-- `BitSet::contains`. -/
def BitSet.contains (s : BitSet) (v : Nat) : Bool :=
  (s.bytes.getD (v / 8) 0) &&& (1 <<< (v % 8)) ≠ 0

/-! ## Sampling engine (`sample.rs`) -/

/-- `Intervention` (sample.rs:42-46). -/
structure Intervention where
  value : Bool
  on_node : Nat
  deriving DecidableEq

/-- The abstracted pseudo-random generator: an oracle stream of Bernoulli
outcomes and the position of the next draw. -/
structure RngState where
  stream : Nat → Bool
  pos : Nat

/-- The ways a sampling pass can stop abnormally. -/
inductive SampleError
  /-- a `winnow` parse error, surfaced through `map_err` (sample.rs:27) -/
  | parseError
  /-- "Node without a matching CPT Entry" (sample.rs:28), the spec's
  `IncompleteCpt` -/
  | incompleteCpt
  /-- models the panic of `rand`'s `random_bool` when the probability is not
  in `[0.0, 1.0]` (including NaN) -/
  | randomBoolPanic
  deriving DecidableEq

/-- A parsed CPT entry (`CPTEntry` in sample.rs:62-65). -/
structure CPTEntryParsed where
  parent_pattern : List Nat
  probability : Nat
  deriving DecidableEq

/-- The `state_shard` fold of `CPTEntry::matches` (sample.rs:70-80): pack up
to four booleans into the low nibble of a byte. -/
def buildShard (chunk : List Bool) : Nat :=
  chunk.enum.foldl (fun acc p => if p.2 then acc ||| (1 <<< p.1) else acc) 0

/-- `CPTEntry::matches` (sample.rs:68-84): for each pattern byte, compare the
next four parent states against the byte's low nibble under its high-nibble
mask. -/
def matchesPattern : List Nat → List Bool → Bool
  | [], _ => true
  | pb :: rest, states =>
      let state_shard := buildShard (states.take 4)
      let mask := pb >>> 4
      (state_shard &&& mask == pb &&& mask) && matchesPattern rest (states.drop 4)

/-- `entry.matches(parent_states)`. -/
def CPTEntryParsed.matchesStates (e : CPTEntryParsed) (states : List Bool) : Bool :=
  matchesPattern e.parent_pattern states

/-- `le_u8`: one byte. -/
def le_u8 (input : List Nat) : Option (Nat × List Nat) :=
  match input with
  | [] => none
  | b :: rest => some (b, rest)

/-- `take(k)`: exactly `k` bytes. -/
def takeBytes (k : Nat) (input : List Nat) : Option (List Nat × List Nat) :=
  if k ≤ input.length then some (input.take k, input.drop k) else none

/-- `le_f32`: four little-endian bytes, reassembled into the 32-bit
pattern. -/
def le_f32 (input : List Nat) : Option (Nat × List Nat) :=
  match takeBytes 4 input with
  | none => none
  | some (bs, rest) =>
      some (bs.getD 0 0 + 256 * (bs.getD 1 0 + 256 * (bs.getD 2 0 + 256 * bs.getD 3 0)),
        rest)

/-- The `cpt_entry` record parser (sample.rs:87-95). -/
def parseCptEntry (num_parents : Nat) (input : List Nat) :
    Option (CPTEntryParsed × List Nat) := do
  let (pat, r1) ← takeBytes ((num_parents + 3) / 4) input
  let (prob, r2) ← le_f32 r1
  some (⟨pat, prob⟩, r2)

/-- The entry loop of `process_node` (sample.rs:52-58): parse
`num_cpt_entries` records, keeping the probability of the first entry that
matches (`probability.is_none() && entry.matches(..)`).  The accumulated list
of parsed entries is extra instrumentation (the Rust code drops each entry
after the loop body); the returned probability and leftover input are exactly
the source's. -/
def entriesLoop (num_parents : Nat) (states : List Bool) :
    Nat → List Nat → Option Nat → List CPTEntryParsed →
    Option ((List CPTEntryParsed × Option Nat) × List Nat)
  | 0, input, prob, acc => some ((acc, prob), input)
  | k + 1, input, prob, acc => do
      let (e, rest) ← parseCptEntry num_parents input
      let prob' := if prob.isNone && e.matchesStates states then some e.probability else prob
      entriesLoop num_parents states k rest prob' (acc ++ [e])

/-- `process_node` (sample.rs:48-60).  Returns the parsed parent indices and
CPT entries (instrumentation), the selected probability (`none` when no entry
matched), and the unconsumed input. -/
def process_node (samples : BitSet) (input : List Nat) :
    Option ((List Nat × List CPTEntryParsed × Option Nat) × List Nat) := do
  let (np, r1) ← le_u8 input
  let (parents, r2) ← takeBytes np r1
  let parent_states := parents.map (fun p => samples.contains p)
  let (num_cpt_entries, r3) ← le_u8 r2
  let ((entries, probability), r4) ←
    entriesLoop parents.length parent_states num_cpt_entries r3 none []
  some ((parents, entries, probability), r4)

/-- The sign/magnitude classification behind `rng.random_bool(p)`'s panic:
`rand` panics unless `0.0 ≤ p ≤ 1.0` (NaN fails both comparisons).  On IEEE754
bit patterns: a negative non-zero (including -NaN) fails `0 ≤ p`; a positive
pattern strictly above the pattern of 1.0 (0x3F800000) — which covers +∞ and
+NaN — fails `p ≤ 1`.  `f64::from(f32)` is exact, so the classification of the
widened value equals that of the `f32`. -/
def randomBoolPanics (b : Nat) : Bool :=
  let mag := b % 2 ^ 31
  if b / 2 ^ 31 % 2 = 1 then decide (0 < mag) else decide (0x3F800000 < mag)

/-- `rng.random_bool(f64::from(probability))`: panic check, then one oracle
draw. -/
def random_bool (g : RngState) (probBits : Nat) : Except SampleError (Bool × RngState) :=
  if randomBoolPanics probBits then .error .randomBoolPanic
  else .ok (g.stream g.pos, ⟨g.stream, g.pos + 1⟩)

/-- Does the `if let Some(Intervention { .. }) = intervention && on_node == node`
guard fire (sample.rs:29-33)? -/
def isInterventionTarget (intervention : Option Intervention) (node : Nat) : Bool :=
  match intervention with
  | some i => i.on_node = node
  | none => false

/-- The `for node in 0..num_nodes` loop of `sample` (sample.rs:25-37). -/
def sampleNodes (intervention : Option Intervention) :
    List Nat → List Nat → BitSet → RngState →
    Except SampleError (BitSet × RngState × List Nat)
  | [], input, samples, g => .ok (samples, g, input)
  | node :: rest, input, samples, g =>
      match process_node samples input with
      | none => .error .parseError
      | some ((_, _, none), _) => .error .incompleteCpt
      | some ((_, _, some probability), input') =>
          if isInterventionTarget intervention node then
            sampleNodes intervention rest input' samples g
          else
            match random_bool g probability with
            | .error e => .error e
            | .ok (b, g') =>
                sampleNodes intervention rest input'
                  (if b then samples.insert node else samples) g'

/-- `sample` (sample.rs:13-40).  Returns the presence set together with the
final rng state and the unconsumed input (the Rust function `debug_assert!`s
the latter empty and drops the former). -/
def sample (serialized_network : List Nat) (num_nodes : Nat)
    (intervention : Option Intervention) (g : RngState) :
    Except SampleError (BitSet × RngState × List Nat) :=
  let samples := BitSet.new
  let samples :=
    match intervention with
    | some i => if i.value then samples.insert i.on_node else samples
    | none => samples
  sampleNodes intervention (List.range num_nodes) serialized_network samples g

/-! ## Query layer (`lib.rs`) -/

/-- The error paths of the `wasm_bindgen` entry points (each is a distinct
`JsValue::from_str` site in `lib.rs`). -/
inductive QueryError
  | deserializeFailed
  | encode (e : EncodeError)
  | sampling (e : SampleError)
  /-- "Target node {id} not found" (lib.rs:91-95) -/
  | nodeNotFound
  /-- "Too many nodes for u8" -/
  | tooManyNodesU8
  /-- "Target node {id} not found" in the topo order (lib.rs:118-125) -/
  | targetNotFoundInTopo
  /-- "Ancestor node {id} not found" -/
  | ancestorNotFound
  deriving DecidableEq

/-- The parent-collection part of `get_ancestors` (lib.rs:188-197) agrees
with `nodeParents`.  The BFS itself (lib.rs:199-216): pop an id, push its
unvisited parents; fuel makes the recursion structural and is always
sufficient because each id is visited at most once. -/
def bfsAncestors (parentOf : String → List String) :
    Nat → List String → List String → List String → List String
  | 0, _, _, ancestors => ancestors
  | _ + 1, [], _, ancestors => ancestors
  | fuel + 1, cur :: queue, visited, ancestors =>
      let st := (parentOf cur).foldl
        (fun (acc : List String × List String × List String) p =>
          if p ∈ acc.1 then acc else (acc.1 ++ [p], acc.2.1 ++ [p], acc.2.2 ++ [p]))
        (visited, ancestors, queue)
      bfsAncestors parentOf fuel st.2.2 st.1 st.2.1

/-- Fuel bound for the ancestor BFS: more ids than can ever be enqueued. -/
def bfsFuel (nodes : List Node) : Nat :=
  (allKahnIds nodes).length + 1

/-- `get_ancestors` (lib.rs:184-219): BFS over the parent relation starting
at the target; the target starts out visited, so it is excluded from the
result. -/
def get_ancestors (nodes : List Node) (target_node_id : String) : List String :=
  bfsAncestors (nodeParents nodes) (bfsFuel nodes) [target_node_id] [target_node_id] []

/-- One batch of `num_samples` sampling passes counting how often `target_idx`
is present (the body of `compute_intervention_prob`, lib.rs:133-149). -/
def runBatch (data : List Nat) (num_nodes : Nat) (intervention : Intervention)
    (target_idx : Nat) : Nat → RngState → Except SampleError (Nat × RngState)
  | 0, g => .ok (0, g)
  | k + 1, g => do
      let (s, g', _) ← sample data num_nodes (some intervention) g
      let (c, g'') ← runBatch data num_nodes intervention target_idx k g'
      .ok ((if s.contains target_idx then 1 else 0) + c, g'')

/-- `compute_intervention_prob` (lib.rs:131-153).  The `f64` division
`count / num_samples` is embedded as exact rational division; no claim
depends on its rounding. -/
def compute_intervention_prob (data : List Nat) (num_nodes : Nat) (target_idx : Nat)
    (num_samples : Nat) (ancestor_idx : Nat) (intervention_value : Bool) (g : RngState) :
    Except QueryError (Rat × RngState) := do
  match runBatch data num_nodes ⟨intervention_value, ancestor_idx⟩ target_idx num_samples g with
  | .error e => Except.error (QueryError.sampling e)
  | .ok (count, g') => Except.ok ((count : Rat) / (num_samples : Rat), g')

/-- The per-ancestor loop of `compute_sensitivity` (lib.rs:157-178), threading
one rng sequentially through all batches. -/
def sensitivityRows (data : List Nat) (num_nodes : Nat) (topo_order : List String)
    (target_idx : Nat) (num_samples : Nat) (target_node_id : String) :
    List Node → RngState → Except QueryError (List (String × Rat) × RngState)
  | [], g => .ok ([], g)
  | node :: rest, g =>
      if node.id = target_node_id then
        sensitivityRows data num_nodes topo_order target_idx num_samples target_node_id rest g
      else
        match List.indexOf? node.id topo_order with
        | none => .error .ancestorNotFound
        | some ancestor_idx => do
            let (prob_true, g1) ← compute_intervention_prob data num_nodes target_idx
              num_samples ancestor_idx true g
            let (prob_false, g2) ← compute_intervention_prob data num_nodes target_idx
              num_samples ancestor_idx false g1
            let (tl, g3) ← sensitivityRows data num_nodes topo_order target_idx num_samples
              target_node_id rest g2
            .ok ((node.id, prob_true - prob_false) :: tl, g3)

/-- `compute_sensitivity` (lib.rs:82-182).  The oracle `stream` plays the role
of the entropy-seeded rng (created only after the empty-ancestor early
return).  The second component of the result is the number of Bernoulli draws
consumed, 0 when no sampling happened. -/
def compute_sensitivity (nodes : List Node) (target_node_id : String)
    (num_samples : Nat) (stream : Nat → Bool) :
    Except QueryError (List (String × Rat) × Nat) := do
  if ¬ nodes.any (fun n => n.id = target_node_id) then Except.error .nodeNotFound
  else
    let ancestor_set := get_ancestors nodes target_node_id
    if ancestor_set.isEmpty then Except.ok ([], 0)
    else do
      let nodes_to_serialize := nodes.filter
        (fun n => decide (n.id ∈ ancestor_set) || decide (n.id = target_node_id))
      let serialized ← (serialize_network nodes_to_serialize).mapError QueryError.encode
      if 255 < serialized.topo_order.length then Except.error .tooManyNodesU8
      else
        match List.indexOf? target_node_id serialized.topo_order with
        | none => Except.error .targetNotFoundInTopo
        | some target_idx => do
            let g0 : RngState := ⟨stream, 0⟩
            let (rows, gEnd) ← sensitivityRows serialized.data serialized.topo_order.length
              serialized.topo_order target_idx num_samples target_node_id
              nodes_to_serialize g0
            Except.ok (rows, gEnd.pos)

/-- The sampling loop of `compute_marginals` (lib.rs:54-63): count presence
per node over `num_samples` unintervened passes. -/
def marginalsBatch (data : List Nat) (num_nodes : Nat) :
    Nat → RngState → Except QueryError (List Nat × RngState)
  | 0, g => .ok (List.replicate num_nodes 0, g)
  | k + 1, g =>
      match sample data num_nodes none g with
      | .error e => .error (QueryError.sampling e)
      | .ok (s, g', _) => do
          let (counts, g'') ← marginalsBatch data num_nodes k g'
          .ok (((List.range num_nodes).map (fun i => if s.contains i then 1 else 0)).zipWith
            (· + ·) counts, g'')

/-- `compute_marginals` (lib.rs:39-78): encode, run `num_samples` passes,
normalize counts by `num_samples` (embedded as exact rational division),
keyed by original node id. -/
def compute_marginals (nodes : List Node) (num_samples : Nat) (stream : Nat → Bool) :
    Except QueryError (List (String × Rat)) := do
  let serialized ← (serialize_network nodes).mapError QueryError.encode
  if 255 < serialized.topo_order.length then Except.error .tooManyNodesU8
  else do
    let (counts, _) ← marginalsBatch serialized.data serialized.topo_order.length
      num_samples ⟨stream, 0⟩
    Except.ok (serialized.topo_order.zip
      (counts.map (fun c => (c : Rat) / (num_samples : Rat))))

/-- The public API surface of `lib.rs`: exactly the two `#[wasm_bindgen]`
entry points `compute_marginals` and `compute_sensitivity`. -/
inductive ApiRequest
  | marginals (nodes : List Node) (num_samples : Nat)
  | sensitivity (nodes : List Node) (target_node_id : String) (num_samples : Nat)

/-- Every exported entry point serializes exactly one `HashMap<String, f64>`
back to the host (lib.rs:66-77 and lib.rs:155-181), so a response carries one
probability-or-sensitivity map. -/
inductive ApiResponse
  | singleMap (entries : List (String × Rat))

/-- The number of node-keyed maps in a response; both entry points return
exactly one. -/
def ApiResponse.mapsCount : ApiResponse → Nat
  | .singleMap _ => 1

/-- Dispatch of the exported API. -/
def apiRun (req : ApiRequest) (stream : Nat → Bool) : Except QueryError ApiResponse :=
  match req with
  | .marginals nodes n => do
      let m ← compute_marginals nodes n stream
      .ok (.singleMap m)
  | .sensitivity nodes target n => do
      let (m, _) ← compute_sensitivity nodes target n stream
      .ok (.singleMap m)

deriving instance DecidableEq for Except

/-- The spec-level reading of `CPTEntry::matches`: position `i` of the parent
list is constrained iff bit `i % 4 + 4` of pattern byte `i / 4` is set, and a
constrained position requires the parent's state to equal bit `i % 4`;
wildcard positions always match. -/
def matchesSpec (pattern : List Nat) (states : List Bool) : Prop :=
  ∀ i < 4 * pattern.length,
    (pattern.getD (i / 4) 0).testBit (i % 4 + 4) = true →
      states.getD i false = (pattern.getD (i / 4) 0).testBit (i % 4)

instance (pattern : List Nat) (states : List Bool) : Decidable (matchesSpec pattern states) :=
  inferInstanceAs (Decidable (∀ i < 4 * pattern.length, _))

/-- Is the parent constrained by this entry (`Some(true)` or `Some(false)`)? -/
def constrainedAt (e : CptEntry) (pid : String) : Bool :=
  match e.parent_states.lookup pid with
  | some (some _) => true
  | _ => false

/-- Does this entry require the parent to be true (`Some(true)`)? -/
def requiredTrueAt (e : CptEntry) (pid : String) : Bool :=
  match e.parent_states.lookup pid with
  | some (some true) => true
  | _ => false

/-- Statement-side projection of `serialize_node`'s sorted
`(parent id, topo index)` pair list, for a total index assignment `f`
(every parent is in the topology whenever the encoder reaches this point,
so the `getD 0` default is never taken on the success path). -/
def encSortedPairsF (f : String → Option Nat) (pids : List String) :
    List (String × Nat) :=
  List.insertionSort byTopoIdx (pids.map (fun p => (p, (f p).getD 0)))

/-- The exact byte string `serialize_node` emits for one node: one byte
`num_parents`, the parents' topological indices sorted ascending, one byte
`num_cpt_entries`, then each CPT entry's `ceil(num_parents / 4)` pattern
bytes followed by the probability's four little-endian bytes. -/
def nodeBytesSpecF (f : String → Option Nat) (pids : List String) (node : Node) :
    List Nat :=
  let sorted := encSortedPairsF f pids
  sorted.length :: sorted.map Prod.snd
    ++ node.cpt_entries.length
      :: node.cpt_entries.flatMap (fun e => serialize_cpt_entry e (sorted.map Prod.fst))

/-- `nodeBytesSpecF` specialized to a topological order. -/
def nodeBytesSpec (topo : List String) (node : Node) : List Nat :=
  nodeBytesSpecF (fun id => List.indexOf? id topo) (get_node_parents node) node

/-- The parsed CPT entries the decoder should recover for one node encoded
against parent-id list `ids`: the entry's pattern bytes and the probability's
32 low bits (what four little-endian bytes can carry). -/
def encEntriesParsed (ids : List String) (entries : List CptEntry) : List CPTEntryParsed :=
  entries.map (fun e => (⟨patternBytesOf e ids, e.probability % 2 ^ 32⟩ : CPTEntryParsed))

/-- Replay `process_node` a fixed number of times, collecting each node's
parsed parent indices and CPT entries and the final unconsumed input (the
presence set only influences the discarded probabilities, not the parse). -/
def decode_nodes (samples : BitSet) :
    Nat → List Nat → Option (List (List Nat × List CPTEntryParsed) × List Nat)
  | 0, input => some ([], input)
  | k + 1, input => do
      let ((ps, es, _), rest) ← process_node samples input
      let (tl, rest2) ← decode_nodes samples k rest
      some ((ps, es) :: tl, rest2)

/-- The per-node decode target: parent indices and parsed entries as the
encoder laid them out. -/
def decodedNodeSpec (topo : List String) (node : Node) :
    List Nat × List CPTEntryParsed :=
  let sorted := encSortedPairsF (fun id => List.indexOf? id topo) (get_node_parents node)
  (sorted.map Prod.snd, encEntriesParsed (sorted.map Prod.fst) node.cpt_entries)

/-- One step of the parent relation: `parentEdge nodes x y` says `y` is a
parent of (the node with id) `x`.  A cycle in the parent relation is a
nonempty `Chain` of such steps that closes on itself. -/
def parentEdge (nodes : List Node) (x y : String) : Prop :=
  y ∈ nodeParents nodes x

instance (nodes : List Node) (x y : String) : Decidable (parentEdge nodes x y) :=
  inferInstanceAs (Decidable (y ∈ nodeParents nodes x))

/-- A concrete 255-node parentless network (distinct one-character ids),
used to exercise the encoder's capacity boundary. -/
def nodes255 : List Node :=
  (List.range 255).map (fun i =>
    ({ id := String.mk [Char.ofNat (65 + i)], cpt_entries := [⟨[], 0⟩] } : Node))

/-! ## Helper lemmas and claim theorems -/

/-! ## General helper lemmas -/

theorem dedup_length_eq_iff {α : Type} [DecidableEq α] (l : List α) :
    l.dedup.length = l.length ↔ l.Nodup := by
  constructor
  · intro h
    have hsub : l.dedup.Sublist l := List.dedup_sublist l
    have : l.dedup = l := hsub.eq_of_length h
    simpa [this] using List.nodup_dedup l
  · intro h
    rw [List.dedup_eq_self.mpr h]

theorem and_one_shiftLeft_ne_zero (a i : Nat) :
    (a &&& (1 <<< i) ≠ 0) ↔ a.testBit i = true := by
  rw [Nat.one_shiftLeft]
  constructor
  · intro hne
    by_contra hb
    apply hne
    apply Nat.eq_of_testBit_eq
    intro j
    rw [Nat.testBit_and, Nat.testBit_two_pow, Nat.zero_testBit]
    by_cases hij : i = j
    · subst hij
      simp only [Bool.not_eq_true] at hb
      simp [hb]
    · simp [hij]
  · intro hb h0
    have : (a &&& 2 ^ i).testBit i = false := by
      rw [h0, Nat.zero_testBit]
    rw [Nat.testBit_and, Nat.testBit_two_pow] at this
    simp [hb] at this

/-! ## Bit-set lemmas -/

theorem BitSet.contains_eq_testBit (s : BitSet) (v : Nat) :
    s.contains v = (s.bytes.getD (v / 8) 0).testBit (v % 8) := by
  rw [Bool.eq_iff_iff]
  simp only [BitSet.contains, decide_eq_true_eq]
  exact and_one_shiftLeft_ne_zero _ _

theorem BitSet.contains_new (v : Nat) : BitSet.new.contains v = false := by
  rw [BitSet.contains_eq_testBit]
  have hz : (List.replicate 32 (0 : Nat)).getD (v / 8) 0 = 0 := by
    rw [List.getD_eq_getElem?_getD, List.getElem?_replicate]
    by_cases h : v / 8 < 32 <;> simp [h]
  simp only [BitSet.new] at *
  rw [hz, Nat.zero_testBit]

theorem BitSet.contains_insert_self (s : BitSet) (v : Nat)
    (hv : v / 8 < s.bytes.length) : (s.insert v).contains v = true := by
  rw [BitSet.contains_eq_testBit]
  simp only [BitSet.insert]
  have hset : ((s.bytes.set (v / 8) ((s.bytes.getD (v / 8) 0) ||| (1 <<< (v % 8)))).getD
      (v / 8) 0) = (s.bytes.getD (v / 8) 0) ||| (1 <<< (v % 8)) := by
    rw [List.getD_eq_getElem?_getD, List.getElem?_set_eq_of_lt _ hv]
    rfl
  rw [hset, Nat.testBit_or]
  have hbit : Nat.testBit (1 <<< (v % 8)) (v % 8) = true := by
    rw [Nat.one_shiftLeft, Nat.testBit_two_pow]
    simp
  simp [hbit]

theorem BitSet.contains_insert_ne (s : BitSet) (v w : Nat) (hne : v ≠ w) :
    (s.insert v).contains w = s.contains w := by
  rw [BitSet.contains_eq_testBit, BitSet.contains_eq_testBit]
  simp only [BitSet.insert]
  by_cases hdiv : v / 8 = w / 8
  · have hmod : v % 8 ≠ w % 8 := by
      intro hmod
      apply hne
      have h1 := Nat.div_add_mod v 8
      have h2 := Nat.div_add_mod w 8
      omega
    by_cases hlt : v / 8 < s.bytes.length
    · have hset : ((s.bytes.set (v / 8) ((s.bytes.getD (v / 8) 0) ||| (1 <<< (v % 8)))).getD
          (w / 8) 0) = (s.bytes.getD (v / 8) 0) ||| (1 <<< (v % 8)) := by
        rw [← hdiv, List.getD_eq_getElem?_getD, List.getElem?_set_eq_of_lt _ hlt]
        rfl
      rw [hset, ← hdiv, Nat.testBit_or]
      have hbit : Nat.testBit (1 <<< (v % 8)) (w % 8) = false := by
        rw [Nat.one_shiftLeft, Nat.testBit_two_pow]
        simp [hmod]
      simp [hbit]
    · rw [List.set_eq_of_length_le (by omega)]
  · have hset : ((s.bytes.set (v / 8) ((s.bytes.getD (v / 8) 0) ||| (1 <<< (v % 8)))).getD
        (w / 8) 0) = s.bytes.getD (w / 8) 0 := by
      rw [List.getD_eq_getElem?_getD, List.getElem?_set_ne hdiv, ← List.getD_eq_getElem?_getD]
    rw [hset]

/-! ## Structure of a `process_node` run -/

/-- Running the CPT-entry loop is determined by the input bytes alone: if it
succeeds for one combination of parent states, pending probability and
accumulator, it succeeds for all, parsing the same entries from the same
bytes, and the selected probability is the pending one or else the first
matching entry's. -/
theorem entriesLoop_run :
    ∀ (k : Nat) (np : Nat) (states : List Bool) (input : List Nat)
      (p0 : Option Nat) (acc : List CPTEntryParsed) (out : _),
      entriesLoop np states k input p0 acc = some out →
      ∃ tail rest,
        (∀ (states' : List Bool) (p0' : Option Nat) (acc' : List CPTEntryParsed),
          entriesLoop np states' k input p0' acc' =
            some ((acc' ++ tail,
              p0' <|> (tail.find? (fun e => e.matchesStates states')).map
                CPTEntryParsed.probability), rest)) ∧
        out = ((acc ++ tail,
          p0 <|> (tail.find? (fun e => e.matchesStates states)).map
            CPTEntryParsed.probability), rest) := by
  intro k
  induction k with
  | zero =>
      intro np states input p0 acc out h
      refine ⟨[], input, ?_, ?_⟩
      · intro states' p0' acc'
        simp [entriesLoop]
      · simp only [entriesLoop, Option.some_inj] at h
        simp [← h]
  | succ k ih =>
      intro np states input p0 acc out h
      simp only [entriesLoop, Option.bind_eq_bind, Option.bind_eq_some] at h
      obtain ⟨⟨e, rest1⟩, hparse, hrec⟩ := h
      obtain ⟨tail, rest, hall, hout⟩ := ih np states rest1 _ _ out hrec
      have key : ∀ (states' : List Bool) (p0' : Option Nat),
          ((if p0'.isNone && e.matchesStates states' then some e.probability else p0') <|>
            (tail.find? (fun x => x.matchesStates states')).map CPTEntryParsed.probability) =
          (p0' <|> ((e :: tail).find? (fun x => x.matchesStates states')).map
            CPTEntryParsed.probability) := by
        intro states' p0'
        cases p0' with
        | some v => simp
        | none =>
            by_cases hm : e.matchesStates states' = true
            · simp [hm, List.find?_cons, CPTEntryParsed.matchesStates] at *
              simp [hm]
            · simp only [Bool.not_eq_true] at hm
              simp [hm, List.find?_cons, CPTEntryParsed.matchesStates] at *
              simp [hm]
      refine ⟨e :: tail, rest, ?_, ?_⟩
      · intro states' p0' acc'
        simp only [entriesLoop, Option.bind_eq_bind, hparse, Option.some_bind]
        rw [hall states' _ (acc' ++ [e]), List.append_assoc, key states' p0']
        rfl
      · rw [hout, List.append_assoc, key states p0]
        rfl

/-- A successful `process_node` run is determined by the input bytes, up to
the presence-set-dependent probability: the parsed parent indices, the parsed
CPT entries and the consumed bytes are the same for every presence set, and
the probability is always the first matching parsed entry's. -/
theorem process_node_run (samples : BitSet) (input : List Nat)
    (out : (List Nat × List CPTEntryParsed × Option Nat) × List Nat)
    (h : process_node samples input = some out) :
    ∃ parents entries rest,
      (∀ samples' : BitSet,
        process_node samples' input = some ((parents, entries,
          (entries.find? (fun e =>
            e.matchesStates (parents.map (fun p => samples'.contains p)))).map
              CPTEntryParsed.probability), rest)) ∧
      out = ((parents, entries,
        (entries.find? (fun e =>
          e.matchesStates (parents.map (fun p => samples.contains p)))).map
            CPTEntryParsed.probability), rest) := by
  simp only [process_node, Option.bind_eq_bind, Option.bind_eq_some] at h
  obtain ⟨⟨np, r1⟩, h1, ⟨⟨parents, r2⟩, h2, ⟨⟨k, r3⟩, h3, ⟨⟨⟨entries, pr⟩, r4⟩, h4, hout⟩⟩⟩⟩ := h
  obtain ⟨tail, rest, hall, hshape⟩ := entriesLoop_run k parents.length _ r3 none [] _ h4
  refine ⟨parents, tail, rest, ?_, ?_⟩
  · intro samples'
    simp only [process_node, Option.bind_eq_bind, h1, Option.some_bind, h2, h3]
    rw [hall (parents.map (fun p => samples'.contains p)) none []]
    simp
  · simp only [Option.some_inj] at hout
    rw [← hout]
    simp only [Prod.mk.injEq] at hshape
    obtain ⟨⟨he, hp⟩, hr⟩ := hshape
    simp only [List.nil_append] at he
    subst he hr
    simp only [Option.none_orElse] at hp
    simp [hp]

/-! ## Bitwise CPT matching (C1 machinery) -/

theorem and_mask_eq_iff (s p m : Nat) :
    (s &&& m = p &&& m) ↔ ∀ i, m.testBit i = true → s.testBit i = p.testBit i := by
  constructor
  · intro h i hm
    have := congrArg (fun x => x.testBit i) h
    simp only [Nat.testBit_and, hm, Bool.and_true] at this
    exact this
  · intro h
    apply Nat.eq_of_testBit_eq
    intro i
    rw [Nat.testBit_and, Nat.testBit_and]
    cases hm : m.testBit i with
    | false => simp
    | true => simp [h i hm]

theorem enumFrom_shard_testBit :
    ∀ (chunk : List Bool) (n : Nat) (acc : Nat) (i : Nat),
      ((List.enumFrom n chunk).foldl
        (fun acc p => if p.2 then acc ||| (1 <<< p.1) else acc) acc).testBit i =
      (acc.testBit i || (decide (n ≤ i) && chunk.getD (i - n) false)) := by
  intro chunk
  induction chunk with
  | nil =>
      intro n acc i
      simp [List.enumFrom]
  | cons b bs ih =>
      intro n acc i
      simp only [List.enumFrom, List.foldl_cons]
      rw [ih]
      have hacc : (if b then acc ||| (1 <<< n) else acc).testBit i =
          (acc.testBit i || (b && decide (i = n))) := by
        cases b with
        | false => simp
        | true =>
            simp only [if_pos]
            rw [Nat.testBit_or, Nat.one_shiftLeft, Nat.testBit_two_pow]
            by_cases hin : n = i
            · simp [hin]
            · have : ¬ i = n := fun hc => hin hc.symm
              simp [hin, this]
      rw [hacc]
      by_cases hle : n + 1 ≤ i
      · have h1 : decide (n + 1 ≤ i) = true := by simp [hle]
        have h2 : decide (n ≤ i) = true := by simp; omega
        have h3 : ¬ i = n := by omega
        have h4 : (b :: bs).getD (i - n) false = bs.getD (i - (n + 1)) false := by
          have : i - n = (i - (n + 1)) + 1 := by omega
          rw [this, List.getD_cons_succ]
        rw [h1, h2, h4]
        simp [h3]
      · have h1 : decide (n + 1 ≤ i) = false := by simp; omega
        rw [h1]
        by_cases hin : i = n
        · subst hin
          have h2 : decide (i ≤ i) = true := by simp
          have h3 : (b :: bs).getD (i - i) false = b := by
            simp [Nat.sub_self, List.getD_cons_zero]
          rw [h2, h3]
          simp
        · have h2 : decide (n ≤ i) = false := by simp; omega
          rw [h2]
          simp [hin]

theorem buildShard_testBit (chunk : List Bool) (i : Nat) :
    (buildShard chunk).testBit i = chunk.getD i false := by
  have h := enumFrom_shard_testBit chunk 0 0 i
  simp only [buildShard]
  have henum : chunk.enum = List.enumFrom 0 chunk := rfl
  rw [henum, h, Nat.zero_testBit]
  simp

/-- The nibble-level reading of one pattern byte against up to four parent
states: every constrained position (high-nibble bit set) must find the
parent's state equal to the required value (low-nibble bit). -/
theorem shard_mask_eq_iff (pb : Nat) (hpb : pb < 256) (chunk : List Bool) :
    (buildShard chunk &&& (pb >>> 4) = pb &&& (pb >>> 4)) ↔
    ∀ o < 4, pb.testBit (o + 4) = true → chunk.getD o false = pb.testBit o := by
  rw [and_mask_eq_iff]
  constructor
  · intro h o ho hbit
    have := h o (by rw [Nat.testBit_shiftRight, Nat.add_comm]; exact hbit)
    rw [buildShard_testBit] at this
    exact this
  · intro h i hm
    rw [Nat.testBit_shiftRight] at hm
    by_cases hi : i < 4
    · rw [buildShard_testBit]
      exact h i hi (by rw [Nat.add_comm]; exact hm)
    · exfalso
      have hge : 8 ≤ 4 + i := by omega
      have : pb < 2 ^ (4 + i) := by
        calc pb < 256 := hpb
        _ = 2 ^ 8 := by norm_num
        _ ≤ 2 ^ (4 + i) := Nat.pow_le_pow_right (by norm_num) hge
      rw [Nat.testBit_lt_two_pow this] at hm
      exact Bool.false_ne_true hm

theorem getD_drop_bool (l : List Bool) (n i : Nat) :
    (l.drop n).getD i false = l.getD (n + i) false := by
  simp [List.getD_eq_getElem?_getD, List.getElem?_drop]

theorem getD_take_bool (l : List Bool) (i : Nat) (h : i < 4) :
    (l.take 4).getD i false = l.getD i false := by
  simp [List.getD_eq_getElem?_getD, List.getElem?_take, h]

theorem matchesSpec_cons (pb : Nat) (rest : List Nat) (states : List Bool) :
    matchesSpec (pb :: rest) states ↔
    ((∀ o < 4, pb.testBit (o + 4) = true → states.getD o false = pb.testBit o) ∧
      matchesSpec rest (states.drop 4)) := by
  constructor
  · intro h
    constructor
    · intro o ho hbit
      have hlt : o < 4 * (pb :: rest).length := by simp [List.length_cons]; omega
      have hdiv : o / 4 = 0 := Nat.div_eq_of_lt ho
      have hmod : o % 4 = o := Nat.mod_eq_of_lt ho
      have := h o hlt
      rw [hdiv, hmod] at this
      exact this hbit
    · intro i hi hbit
      have hlt : 4 + i < 4 * (pb :: rest).length := by simp [List.length_cons]; omega
      have hdiv : (4 + i) / 4 = 1 + i / 4 := by omega
      have hmod : (4 + i) % 4 = i % 4 := by omega
      have := h (4 + i) hlt
      rw [hdiv, hmod] at this
      have hgetp : (pb :: rest).getD (1 + i / 4) 0 = rest.getD (i / 4) 0 := by
        have : 1 + i / 4 = i / 4 + 1 := by omega
        rw [this, List.getD_cons_succ]
      rw [hgetp] at this
      rw [getD_drop_bool]
      exact this hbit
  · intro h i hi hbit
    by_cases hlt : i < 4
    · have hdiv : i / 4 = 0 := Nat.div_eq_of_lt hlt
      have hmod : i % 4 = i := Nat.mod_eq_of_lt hlt
      rw [hdiv, hmod, List.getD_cons_zero] at hbit ⊢
      exact h.1 i hlt hbit
    · obtain ⟨j, rfl⟩ : ∃ j, i = 4 + j := ⟨i - 4, by omega⟩
      have hdiv : (4 + j) / 4 = j / 4 + 1 := by omega
      have hmod : (4 + j) % 4 = j % 4 := by omega
      rw [hdiv, hmod, List.getD_cons_succ] at hbit ⊢
      have hj : j < 4 * rest.length := by simp [List.length_cons] at hi; omega
      have hres := h.2 j hj hbit
      rw [getD_drop_bool] at hres
      exact hres

/-- `CPTEntry::matches`' mask arithmetic computes exactly the spec-level
constrained-position semantics, for genuine bytes (each pattern byte
< 256). -/
theorem matchesPattern_eq_true_iff :
    ∀ (pattern : List Nat) (states : List Bool), (∀ b ∈ pattern, b < 256) →
      (matchesPattern pattern states = true ↔ matchesSpec pattern states) := by
  intro pattern
  induction pattern with
  | nil =>
      intro states _
      simp only [matchesPattern]
      constructor
      · intro _ i hi
        simp at hi
      · intro _
        trivial
  | cons pb rest ih =>
      intro states hb
      simp only [matchesPattern, Bool.and_eq_true, beq_iff_eq]
      rw [matchesSpec_cons]
      have hpb : pb < 256 := hb pb (by simp)
      have htail : ∀ b ∈ rest, b < 256 := fun b hbm => hb b (by simp [hbm])
      rw [shard_mask_eq_iff pb hpb (states.take 4), ih (states.drop 4) htail]
      constructor
      · intro ⟨h1, h2⟩
        refine ⟨?_, h2⟩
        intro o ho hbit
        rw [← getD_take_bool states o ho]
        exact h1 o ho hbit
      · intro ⟨h1, h2⟩
        refine ⟨?_, h2⟩
        intro o ho hbit
        rw [getD_take_bool states o ho]
        exact h1 o ho hbit

theorem find?_congr_mem {α : Type} (p q : α → Bool) :
    ∀ (l : List α), (∀ a ∈ l, p a = q a) → l.find? p = l.find? q := by
  intro l
  induction l with
  | nil => intro _; rfl
  | cons x xs ih =>
      intro h
      simp only [List.find?_cons]
      rw [h x (by simp)]
      cases q x
      · exact ih (fun a ha => h a (by simp [ha]))
      · rfl

/-! ## Byte bounds through the parser -/

theorem parseCptEntry_bytes_lt (np : Nat) (input : List Nat) (e : CPTEntryParsed)
    (rest : List Nat) (h : parseCptEntry np input = some (e, rest))
    (hin : ∀ b ∈ input, b < 256) :
    (∀ b ∈ e.parent_pattern, b < 256) ∧ (∀ b ∈ rest, b < 256) := by
  simp only [parseCptEntry, Option.bind_eq_bind, Option.bind_eq_some] at h
  obtain ⟨⟨pat, r1⟩, h1, ⟨⟨prob, r2⟩, h2, hout⟩⟩ := h
  simp only [takeBytes] at h1
  by_cases hk : (np + 3) / 4 ≤ input.length
  · rw [if_pos hk] at h1
    simp only [Option.some_inj, Prod.mk.injEq] at h1
    obtain ⟨hpat, hr1⟩ := h1
    simp only [le_f32, takeBytes] at h2
    by_cases hk2 : 4 ≤ r1.length
    · rw [if_pos hk2] at h2
      simp only [Option.some_inj, Prod.mk.injEq] at h2
      obtain ⟨_, hr2⟩ := h2
      simp only [Option.some_inj, Prod.mk.injEq] at hout
      obtain ⟨he, hrest⟩ := hout
      subst he
      constructor
      · intro b hbm
        simp only [← hpat] at hbm
        exact hin b (List.mem_of_mem_take hbm)
      · intro b hbm
        rw [← hrest, ← hr2, ← hr1] at hbm
        exact hin b (List.mem_of_mem_drop (List.mem_of_mem_drop hbm))
    · rw [if_neg hk2] at h2
      exact absurd h2 (by simp)
  · rw [if_neg hk] at h1
    exact absurd h1 (by simp)

theorem entriesLoop_bytes_lt :
    ∀ (k np : Nat) (states : List Bool) (input : List Nat) (p0 : Option Nat)
      (acc : List CPTEntryParsed) (out : (List CPTEntryParsed × Option Nat) × List Nat),
      entriesLoop np states k input p0 acc = some out →
      (∀ b ∈ input, b < 256) →
      ∀ e ∈ out.1.1, e ∈ acc ∨ (∀ b ∈ e.parent_pattern, b < 256) := by
  intro k
  induction k with
  | zero =>
      intro np states input p0 acc out h hin e he
      simp only [entriesLoop, Option.some_inj] at h
      rw [← h] at he
      exact Or.inl he
  | succ k ih =>
      intro np states input p0 acc out h hin e he
      simp only [entriesLoop, Option.bind_eq_bind, Option.bind_eq_some] at h
      obtain ⟨⟨e1, rest1⟩, hparse, hrec⟩ := h
      obtain ⟨he1, hrest1⟩ := parseCptEntry_bytes_lt np input e1 rest1 hparse hin
      have := ih np states rest1 _ _ out hrec hrest1 e he
      rcases this with hacc | hok
      · rcases List.mem_append.mp hacc with h1 | h2
        · exact Or.inl h1
        · simp only [List.mem_singleton] at h2
          subst h2
          exact Or.inr he1
      · exact Or.inr hok

theorem process_node_entry_bytes_lt (samples : BitSet) (input : List Nat)
    (parents : List Nat) (entries : List CPTEntryParsed) (pr : Option Nat)
    (rest : List Nat)
    (h : process_node samples input = some ((parents, entries, pr), rest))
    (hin : ∀ b ∈ input, b < 256) :
    ∀ e ∈ entries, ∀ b ∈ e.parent_pattern, b < 256 := by
  simp only [process_node, Option.bind_eq_bind, Option.bind_eq_some] at h
  obtain ⟨⟨np, r1⟩, h1, ⟨⟨ps, r2⟩, h2, ⟨⟨k, r3⟩, h3, ⟨⟨⟨es, p⟩, r4⟩, h4, hout⟩⟩⟩⟩ := h
  have hr1 : ∀ b ∈ r1, b < 256 := by
    cases input with
    | nil => exact absurd h1 (by simp [le_u8])
    | cons x xs =>
        simp only [le_u8, Option.some_inj, Prod.mk.injEq] at h1
        intro b hbm
        rw [← h1.2] at hbm
        exact hin b (by simp [hbm])
  have hr2 : ∀ b ∈ r2, b < 256 := by
    simp only [takeBytes] at h2
    by_cases hk : np ≤ r1.length
    · rw [if_pos hk] at h2
      simp only [Option.some_inj, Prod.mk.injEq] at h2
      intro b hbm
      rw [← h2.2] at hbm
      exact hr1 b (List.mem_of_mem_drop hbm)
    · rw [if_neg hk] at h2
      exact absurd h2 (by simp)
  have hr3 : ∀ b ∈ r3, b < 256 := by
    cases r2 with
    | nil => exact absurd h3 (by simp [le_u8])
    | cons x xs =>
        simp only [le_u8, Option.some_inj, Prod.mk.injEq] at h3
        intro b hbm
        rw [← h3.2] at hbm
        exact hr2 b (by simp [hbm])
  intro e he b hbm
  simp only [Option.some_inj, Prod.mk.injEq] at hout
  have hes : es = entries := hout.1.2.1
  have := entriesLoop_bytes_lt k ps.length _ r3 none [] _ h4 hr3 e (by rw [hes]; exact he)
  rcases this with habs | hok
  · simp at habs
  · exact hok b hbm

/-! ## Claim theorems: first-match CPT selection (C1) -/

/-- C1: during a sampling pass, `process_node` selects the probability of the
first parsed CPT entry, in parse (= declaration) order, whose pattern matches
the node's current parent assignment under the spec-level constrained-nibble
semantics (`matchesSpec`); and whenever no entry matches (`none` selected),
the sampling loop aborts with `incompleteCpt` at whatever node it is
processing. -/
theorem claim_C1_first_matching_entry :
    (∀ (samples : BitSet) (input : List Nat), (∀ b ∈ input, b < 256) →
      ∀ (parents : List Nat) (entries : List CPTEntryParsed) (pr : Option Nat)
        (rest : List Nat),
        process_node samples input = some ((parents, entries, pr), rest) →
        pr = (entries.find? (fun e =>
          decide (matchesSpec e.parent_pattern
            (parents.map (fun p => samples.contains p))))).map
              CPTEntryParsed.probability) ∧
    (∀ (intervention : Option Intervention) (node : Nat) (rest : List Nat)
       (input : List Nat) (samples : BitSet) (g : RngState)
       (parents : List Nat) (entries : List CPTEntryParsed) (r : List Nat),
      process_node samples input = some ((parents, entries, none), r) →
      sampleNodes intervention (node :: rest) input samples g =
        .error .incompleteCpt) := by
  constructor
  · intro samples input hin parents entries pr rest h
    obtain ⟨parents2, entries2, rest2, _, hshape⟩ := process_node_run samples input _ h
    simp only [Prod.mk.injEq] at hshape
    obtain ⟨⟨hp, he, hpr⟩, hr⟩ := hshape
    subst hp
    subst he
    rw [hpr]
    congr 1
    apply find?_congr_mem
    intro e hmem
    have hbytes := process_node_entry_bytes_lt samples input parents entries pr rest h hin e hmem
    have hiff := matchesPattern_eq_true_iff e.parent_pattern
      (parents.map (fun p => samples.contains p)) hbytes
    rw [Bool.eq_iff_iff]
    simp only [decide_eq_true_eq, CPTEntryParsed.matchesStates]
    exact hiff
  · intro intervention node rest input samples g parents entries r hpn
    simp [sampleNodes, hpn]

/-- Witness for C1: a one-parent node with a constrained entry (pattern byte
0x11, requiring the parent true) listed before an all-wildcard default; with
the parent absent the wildcard entry's probability (bits 2) is selected, and
find-first over `matchesSpec` agrees.  A node with zero CPT entries aborts the
loop with `incompleteCpt`. -/
theorem claim_C1_first_matching_entry_witness :
    (some 2 = (([⟨[17], 1⟩, ⟨[0], 2⟩] : List CPTEntryParsed).find? (fun e =>
      decide (matchesSpec e.parent_pattern
        (([0] : List Nat).map (fun p => BitSet.new.contains p))))).map
          CPTEntryParsed.probability) ∧
    sampleNodes none [0] [0, 0] BitSet.new ⟨fun _ => false, 0⟩ =
      .error .incompleteCpt := by
  constructor
  · exact claim_C1_first_matching_entry.1 BitSet.new
      [1, 0, 2, 17, 1, 0, 0, 0, 0, 2, 0, 0, 0] (by decide)
      [0] [⟨[17], 1⟩, ⟨[0], 2⟩] (some 2) [] (by decide)
  · exact claim_C1_first_matching_entry.2 none 0 [] [0, 0] BitSet.new
      ⟨fun _ => false, 0⟩ [] [] [] (by decide)

/-! ## Claim theorems: interventions pin the target (C2) -/

/-- Inside the sampling loop an intervention's target node is never the
argument of a presence-set insertion, so its membership never changes. -/
theorem sampleNodes_target_invariant (i : Intervention) :
    ∀ (idxs : List Nat) (input : List Nat) (s : BitSet) (g : RngState)
      (res : BitSet) (g2 : RngState) (left : List Nat),
      sampleNodes (some i) idxs input s g = .ok (res, g2, left) →
      res.contains i.on_node = s.contains i.on_node := by
  intro idxs
  induction idxs with
  | nil =>
      intro input s g res g2 left h
      simp only [sampleNodes, Except.ok.injEq, Prod.mk.injEq] at h
      rw [h.1]
  | cons node rest ih =>
      intro input s g res g2 left h
      simp only [sampleNodes] at h
      cases hpn : process_node s input with
      | none =>
          simp only [hpn] at h
          exact absurd h (by simp)
      | some out =>
          obtain ⟨⟨parents, entries, pr⟩, r⟩ := out
          cases pr with
          | none =>
              simp only [hpn] at h
              exact absurd h (by simp)
          | some probability =>
              simp only [hpn] at h
              by_cases htarget : isInterventionTarget (some i) node = true
              · rw [if_pos htarget] at h
                exact ih _ _ _ _ _ _ h
              · rw [if_neg htarget] at h
                cases hrb : random_bool g probability with
                | error e =>
                    simp only [hrb] at h
                    exact absurd h (by simp)
                | ok bg =>
                    simp only [hrb] at h
                    have hne : node ≠ i.on_node := by
                      simp only [isInterventionTarget] at htarget
                      intro hcontra
                      exact htarget (by simp [hcontra])
                    have := ih _ _ _ _ _ _ h
                    rw [this]
                    cases hb : bg.1 with
                    | false => simp [hb]
                    | true => simp [hb, BitSet.contains_insert_ne _ _ _ hne]

/-- Whenever a sampling pass with intervention `{value, on_node}` returns a
presence set, the target node's presence equals the forced value, for every
buffer, node count, and random stream. -/
theorem sample_intervention_pins_target :
    ∀ (bytes : List Nat) (num_nodes : Nat) (v : Bool) (on_node : Nat) (g : RngState)
      (res : BitSet) (g2 : RngState) (left : List Nat),
      on_node < 256 →
      sample bytes num_nodes (some ⟨v, on_node⟩) g = .ok (res, g2, left) →
      res.contains on_node = v := by
  intro bytes num_nodes v on_node g res g2 left hlt h
  simp only [sample] at h
  have hinv := sampleNodes_target_invariant ⟨v, on_node⟩ _ _ _ _ _ _ _ h
  rw [hinv]
  cases v with
  | false => simp [BitSet.contains_new]
  | true =>
      apply BitSet.contains_insert_self
      simp only [BitSet.new, List.length_replicate]
      omega

/-- The bytes the sampling loop consumes do not depend on the intervention,
the presence set, or the random stream: two successful runs over the same
buffer and node list leave the same unconsumed suffix. -/
theorem sampleNodes_leftover_unique :
    ∀ (idxs : List Nat) (input : List Nat)
      (i1 i2 : Option Intervention) (s1 s2 : BitSet) (g1 g2 : RngState)
      (r1 r2 : BitSet) (h1 h2 : RngState) (l1 l2 : List Nat),
      sampleNodes i1 idxs input s1 g1 = .ok (r1, h1, l1) →
      sampleNodes i2 idxs input s2 g2 = .ok (r2, h2, l2) →
      l1 = l2 := by
  intro idxs
  induction idxs with
  | nil =>
      intro input i1 i2 s1 s2 g1 g2 r1 r2 h1 h2 l1 l2 ha hb
      simp only [sampleNodes, Except.ok.injEq, Prod.mk.injEq] at ha hb
      rw [← ha.2.2, ← hb.2.2]
  | cons node rest ih =>
      intro input i1 i2 s1 s2 g1 g2 r1 r2 h1 h2 l1 l2 ha hb
      simp only [sampleNodes] at ha hb
      cases hpn : process_node s1 input with
      | none =>
          simp only [hpn] at ha
          exact absurd ha (by simp)
      | some out =>
          obtain ⟨parents, entries, rest4, hall, hshape⟩ := process_node_run s1 input out hpn
          have hpn1 := hall s1
          have hpn2 := hall s2
          cases hsel : (entries.find? (fun e =>
              e.matchesStates (parents.map (fun p => s1.contains p)))).map
                CPTEntryParsed.probability with
          | none =>
              simp only [hpn1, hsel] at ha
              exact absurd ha (by simp)
          | some pa =>
              simp only [hpn1, hsel] at ha
              cases hsel2 : (entries.find? (fun e =>
                  e.matchesStates (parents.map (fun p => s2.contains p)))).map
                    CPTEntryParsed.probability with
              | none =>
                  simp only [hpn2, hsel2] at hb
                  exact absurd hb (by simp)
              | some pb =>
                  simp only [hpn2, hsel2] at hb
                  have step : ∀ (i : Option Intervention) (s : BitSet) (g : RngState)
                      (r : BitSet) (h' : RngState) (l : List Nat) (p : Nat),
                      (if isInterventionTarget i node then
                        sampleNodes i rest rest4 s g
                      else
                        match random_bool g p with
                        | .error e => .error e
                        | .ok (b, g') => sampleNodes i rest rest4
                            (if b then s.insert node else s) g') = .ok (r, h', l) →
                      ∃ s' g', sampleNodes i rest rest4 s' g' = .ok (r, h', l) := by
                    intro i s g r h' l p hstep
                    by_cases ht : isInterventionTarget i node = true
                    · rw [if_pos ht] at hstep
                      exact ⟨s, g, hstep⟩
                    · rw [if_neg ht] at hstep
                      cases hrb : random_bool g p with
                      | error e =>
                          simp only [hrb] at hstep
                          exact absurd hstep (by simp)
                      | ok bg =>
                          simp only [hrb] at hstep
                          exact ⟨_, _, hstep⟩
                  obtain ⟨sa, ga, hrec1⟩ := step i1 s1 g1 r1 h1 l1 pa ha
                  obtain ⟨sb, gb, hrec2⟩ := step i2 s2 g2 r2 h2 l2 pb hb
                  exact ih _ _ _ _ _ _ _ _ _ _ _ _ _ hrec1 hrec2

/-- C2: for every network buffer and intervention `{on_node, value}`, a
successful sampling pass returns a presence set in which the target is
present exactly when the forced value is true — for every random stream and
every buffer, hence independently of the target's own CPT and with no random
draw deciding its presence (first conjunct).  The target's bytes are still
parsed and its CPT still evaluated: the loop consumes exactly the same bytes
as it would under any other intervention or none at all (second conjunct),
and a parse failure or unmatched CPT at the target still aborts the pass like
at any other node (third conjunct, covering both abnormal outcomes). -/
theorem claim_C2_intervention_isolates_target :
    (∀ (bytes : List Nat) (num_nodes : Nat) (v : Bool) (on_node : Nat) (g : RngState)
      (res : BitSet) (g2 : RngState) (left : List Nat),
      on_node < 256 →
      sample bytes num_nodes (some ⟨v, on_node⟩) g = .ok (res, g2, left) →
      res.contains on_node = v) ∧
    (∀ (idxs : List Nat) (input : List Nat)
      (i1 i2 : Option Intervention) (s1 s2 : BitSet) (g1 g2 : RngState)
      (r1 r2 : BitSet) (h1 h2 : RngState) (l1 l2 : List Nat),
      sampleNodes i1 idxs input s1 g1 = .ok (r1, h1, l1) →
      sampleNodes i2 idxs input s2 g2 = .ok (r2, h2, l2) →
      l1 = l2) ∧
    (∀ (i : Intervention) (rest : List Nat) (input : List Nat) (s : BitSet) (g : RngState),
      (process_node s input = none →
        sampleNodes (some i) (i.on_node :: rest) input s g = .error .parseError) ∧
      (∀ parents entries r, process_node s input = some ((parents, entries, none), r) →
        sampleNodes (some i) (i.on_node :: rest) input s g = .error .incompleteCpt)) := by
  refine ⟨sample_intervention_pins_target, sampleNodes_leftover_unique, ?_⟩
  intro i rest input s g
  constructor
  · intro hpn
    simp [sampleNodes, hpn]
  · intro parents entries r hpn
    simp [sampleNodes, hpn]

/-- Witness for C2 on a one-node network with trailing junk byte 99: forcing
node 0 true makes it present, forcing it false leaves it absent, and both
runs leave exactly the junk byte unconsumed. -/
theorem claim_C2_intervention_isolates_target_witness :
    (BitSet.new.insert 0).contains 0 = true ∧
    BitSet.new.contains 0 = false ∧
    ([99] : List Nat) = [99] := by
  have hT := claim_C2_intervention_isolates_target.1 [0, 1, 0, 0, 0, 0] 1 true 0
    ⟨fun _ => false, 0⟩ (BitSet.new.insert 0) ⟨fun _ => false, 0⟩ [] (by decide) rfl
  have hF := claim_C2_intervention_isolates_target.1 [0, 1, 0, 0, 0, 0] 1 false 0
    ⟨fun _ => false, 0⟩ BitSet.new ⟨fun _ => false, 0⟩ [] (by decide) rfl
  have hL := claim_C2_intervention_isolates_target.2.1 [0] [0, 1, 0, 0, 0, 0, 99]
    (some ⟨true, 0⟩) none (BitSet.new.insert 0) BitSet.new
    ⟨fun _ => false, 0⟩ ⟨fun _ => false, 0⟩
    (BitSet.new.insert 0) BitSet.new ⟨fun _ => false, 0⟩ ⟨fun _ => false, 1⟩
    [99] [99] rfl rfl
  exact ⟨hT, hF, hL⟩

/-! ## Pattern-byte characterization (C3 machinery) -/

theorem testBit_or_one_shiftLeft (x k t : Nat) :
    ((x ||| (1 <<< k)).testBit t = true) ↔ (x.testBit t = true ∨ t = k) := by
  rw [Nat.testBit_or, Nat.one_shiftLeft, Nat.testBit_two_pow]
  simp only [Bool.or_eq_true, decide_eq_true_eq]
  constructor
  · rintro (h | h)
    · exact Or.inl h
    · exact Or.inr h.symm
  · rintro (h | h)
    · exact Or.inl h
    · exact Or.inr h.symm

theorem patternStep_fold_testBit :
    ∀ (ids : List String) (e : CptEntry) (n : Nat) (bytes : List Nat),
      n + ids.length ≤ 4 * bytes.length →
      ((List.enumFrom n ids).foldl (patternStep e) bytes).length = bytes.length ∧
      ∀ j t, ((((List.enumFrom n ids).foldl (patternStep e) bytes).getD j 0).testBit t = true ↔
        ((bytes.getD j 0).testBit t = true ∨
          ∃ k, k < ids.length ∧ (n + k) / 4 = j ∧
            ((requiredTrueAt e (ids.getD k "") = true ∧ t = (n + k) % 4) ∨
             (constrainedAt e (ids.getD k "") = true ∧ t = (n + k) % 4 + 4)))) := by
  intro ids
  induction ids with
  | nil =>
      intro e n bytes _
      simp only [List.enumFrom, List.foldl_nil]
      refine ⟨by trivial, ?_⟩
      intro j t
      constructor
      · intro h
        exact Or.inl h
      · rintro (h | ⟨k, hk, _⟩)
        · exact h
        · simp at hk
  | cons pid rest ih =>
      intro e n bytes hlen
      simp only [List.enumFrom, List.foldl_cons]
      have hlen1 : n / 4 < bytes.length := by
        simp only [List.length_cons] at hlen
        omega
      -- the updated accumulator after the head parent
      have hstep : (patternStep e bytes (n, pid)).length = bytes.length ∧
          ∀ j t, (((patternStep e bytes (n, pid)).getD j 0).testBit t = true ↔
            ((bytes.getD j 0).testBit t = true ∨
              (n / 4 = j ∧
                ((requiredTrueAt e pid = true ∧ t = n % 4) ∨
                 (constrainedAt e pid = true ∧ t = n % 4 + 4))))) := by
        simp only [patternStep]
        cases hlk : e.parent_states.lookup pid with
        | none =>
            refine ⟨rfl, ?_⟩
            intro j t
            constructor
            · intro h
              exact Or.inl h
            · rintro (h | ⟨hj, hcase⟩)
              · exact h
              · rcases hcase with ⟨hreq, _⟩ | ⟨hcon, _⟩
                · simp [requiredTrueAt, hlk] at hreq
                · simp [constrainedAt, hlk] at hcon
        | some ov =>
            cases ov with
            | none =>
                refine ⟨rfl, ?_⟩
                intro j t
                constructor
                · intro h
                  exact Or.inl h
                · rintro (h | ⟨hj, hcase⟩)
                  · exact h
                  · rcases hcase with ⟨hreq, _⟩ | ⟨hcon, _⟩
                    · simp [requiredTrueAt, hlk] at hreq
                    · simp [constrainedAt, hlk] at hcon
            | some b =>
                cases b with
                | true =>
                    refine ⟨by simp [List.length_set], ?_⟩
                    intro j t
                    by_cases hj : j = n / 4
                    · subst hj
                      have hget : ((bytes.set (n / 4)
                          ((bytes.getD (n / 4) 0) ||| (1 <<< (n % 4 + 4)) |||
                            (1 <<< (n % 4)))).getD (n / 4) 0) =
                          (bytes.getD (n / 4) 0) ||| (1 <<< (n % 4 + 4)) ||| (1 <<< (n % 4)) := by
                        rw [List.getD_eq_getElem?_getD, List.getElem?_set_eq_of_lt _ hlen1]
                        rfl
                      rw [hget, testBit_or_one_shiftLeft, testBit_or_one_shiftLeft]
                      have hreq : requiredTrueAt e pid = true := by
                        simp [requiredTrueAt, hlk]
                      have hcon : constrainedAt e pid = true := by
                        simp [constrainedAt, hlk]
                      constructor
                      · rintro ((h | h) | h)
                        · exact Or.inl h
                        · exact Or.inr ⟨rfl, Or.inr ⟨hcon, h⟩⟩
                        · exact Or.inr ⟨rfl, Or.inl ⟨hreq, h⟩⟩
                      · rintro (h | ⟨_, ⟨_, h⟩ | ⟨_, h⟩⟩)
                        · exact Or.inl (Or.inl h)
                        · exact Or.inr h
                        · exact Or.inl (Or.inr h)
                    · have hget : ((bytes.set (n / 4)
                          ((bytes.getD (n / 4) 0) ||| (1 <<< (n % 4 + 4)) |||
                            (1 <<< (n % 4)))).getD j 0) = bytes.getD j 0 := by
                        rw [List.getD_eq_getElem?_getD,
                          List.getElem?_set_ne (fun hc => hj hc.symm),
                          ← List.getD_eq_getElem?_getD]
                      rw [hget]
                      constructor
                      · intro h
                        exact Or.inl h
                      · rintro (h | ⟨hj2, _⟩)
                        · exact h
                        · exact absurd hj2.symm hj
                | false =>
                    refine ⟨by simp [List.length_set], ?_⟩
                    intro j t
                    by_cases hj : j = n / 4
                    · subst hj
                      have hget : ((bytes.set (n / 4)
                          ((bytes.getD (n / 4) 0) ||| (1 <<< (n % 4 + 4)))).getD (n / 4) 0) =
                          (bytes.getD (n / 4) 0) ||| (1 <<< (n % 4 + 4)) := by
                        rw [List.getD_eq_getElem?_getD, List.getElem?_set_eq_of_lt _ hlen1]
                        rfl
                      rw [hget, testBit_or_one_shiftLeft]
                      have hcon : constrainedAt e pid = true := by
                        simp [constrainedAt, hlk]
                      have hreqf : requiredTrueAt e pid = false := by
                        simp [requiredTrueAt, hlk]
                      constructor
                      · rintro (h | h)
                        · exact Or.inl h
                        · exact Or.inr ⟨rfl, Or.inr ⟨hcon, h⟩⟩
                      · rintro (h | ⟨_, ⟨hrt, _⟩ | ⟨_, h⟩⟩)
                        · exact Or.inl h
                        · rw [hreqf] at hrt
                          exact absurd hrt (by simp)
                        · exact Or.inr h
                    · have hget : ((bytes.set (n / 4)
                          ((bytes.getD (n / 4) 0) ||| (1 <<< (n % 4 + 4)))).getD j 0) =
                          bytes.getD j 0 := by
                        rw [List.getD_eq_getElem?_getD,
                          List.getElem?_set_ne (fun hc => hj hc.symm),
                          ← List.getD_eq_getElem?_getD]
                      rw [hget]
                      constructor
                      · intro h
                        exact Or.inl h
                      · rintro (h | ⟨hj2, _⟩)
                        · exact h
                        · exact absurd hj2.symm hj
      obtain ⟨hslen, hsbit⟩ := hstep
      have hlen2 : (n + 1) + rest.length ≤ 4 * (patternStep e bytes (n, pid)).length := by
        rw [hslen]
        simp only [List.length_cons] at hlen
        omega
      obtain ⟨ihlen, ihbit⟩ := ih e (n + 1) (patternStep e bytes (n, pid)) hlen2
      refine ⟨by rw [ihlen, hslen], ?_⟩
      intro j t
      rw [ihbit j t]
      constructor
      · rintro (hbase | ⟨k, hk, hdiv, hcase⟩)
        · rw [hsbit j t] at hbase
          rcases hbase with h | ⟨hj, hcase⟩
          · exact Or.inl h
          · refine Or.inr ⟨0, by simp, ?_, ?_⟩
            · simpa using hj
            · simpa using hcase
        · refine Or.inr ⟨k + 1, by simp only [List.length_cons]; omega, ?_, ?_⟩
          · have : n + (k + 1) = (n + 1) + k := by omega
            rw [this]
            exact hdiv
          · have harith : n + (k + 1) = (n + 1) + k := by omega
            have hgk : (pid :: rest).getD (k + 1) "" = rest.getD k "" := List.getD_cons_succ
            rw [harith, hgk]
            exact hcase
      · rintro (hbase | ⟨k, hk, hdiv, hcase⟩)
        · refine Or.inl ?_
          rw [hsbit j t]
          exact Or.inl hbase
        · cases k with
          | zero =>
              refine Or.inl ?_
              rw [hsbit j t]
              refine Or.inr ⟨by simpa using hdiv, by simpa using hcase⟩
          | succ k =>
              refine Or.inr ⟨k, by simp only [List.length_cons] at hk; omega, ?_, ?_⟩
              · have : n + (k + 1) = (n + 1) + k := by omega
                rw [this] at hdiv
                exact hdiv
              · have harith : n + (k + 1) = (n + 1) + k := by omega
                have hgk : (pid :: rest).getD (k + 1) "" = rest.getD k "" := List.getD_cons_succ
                rw [harith, hgk] at hcase
                exact hcase

theorem patternBytesOf_length (e : CptEntry) (ids : List String) :
    (patternBytesOf e ids).length = (ids.length + 3) / 4 := by
  have hlen : 0 + ids.length ≤
      4 * (List.replicate ((ids.length + 3) / 4) (0 : Nat)).length := by
    rw [List.length_replicate]
    omega
  have := (patternStep_fold_testBit ids e 0 _ hlen).1
  simpa [patternBytesOf] using this

theorem le_f32_leBytes4 (x : Nat) (r : List Nat) :
    le_f32 (leBytes4 x ++ r) = some (x % 2 ^ 32, r) := by
  simp only [leBytes4, le_f32, takeBytes]
  norm_num
  omega

/-- Per-parent reading of the finished pattern bytes: parent `i` of the
sorted parent list owns exactly constraint bit `i % 4 + 4` and value bit
`i % 4` of byte `i / 4`. -/
theorem patternBytesOf_testBit (e : CptEntry) (ids : List String) (i : Nat)
    (hi : i < ids.length) :
    (((patternBytesOf e ids).getD (i / 4) 0).testBit (i % 4 + 4) =
      constrainedAt e (ids.getD i "")) ∧
    (((patternBytesOf e ids).getD (i / 4) 0).testBit (i % 4) =
      requiredTrueAt e (ids.getD i "")) := by
  have hbase : ∀ j, ((List.replicate ((ids.length + 3) / 4) (0 : Nat)).getD j 0) = 0 := by
    intro j
    rw [List.getD_eq_getElem?_getD, List.getElem?_replicate]
    by_cases h : j < (ids.length + 3) / 4 <;> simp [h]
  have hlen : 0 + ids.length ≤ 4 * (List.replicate ((ids.length + 3) / 4) (0 : Nat)).length := by
    rw [List.length_replicate]
    omega
  obtain ⟨_, hbit⟩ := patternStep_fold_testBit ids e 0 _ hlen
  have henum : ids.enum = List.enumFrom 0 ids := rfl
  constructor
  · rw [Bool.eq_iff_iff]
    simp only [patternBytesOf, henum]
    rw [hbit (i / 4) (i % 4 + 4)]
    rw [hbase, Nat.zero_testBit]
    constructor
    · rintro (h | ⟨k, hk, hdiv, hcase⟩)
      · exact absurd h (by simp)
      · simp only [Nat.zero_add] at hdiv hcase
        rcases hcase with ⟨_, habs⟩ | ⟨hcon, heq⟩
        · omega
        · have hkeq : k = i := by omega
          rw [hkeq] at hcon
          exact hcon
    · intro h
      refine Or.inr ⟨i, hi, by omega, Or.inr ⟨h, by omega⟩⟩
  · rw [Bool.eq_iff_iff]
    simp only [patternBytesOf, henum]
    rw [hbit (i / 4) (i % 4)]
    rw [hbase, Nat.zero_testBit]
    constructor
    · rintro (h | ⟨k, hk, hdiv, hcase⟩)
      · exact absurd h (by simp)
      · simp only [Nat.zero_add] at hdiv hcase
        rcases hcase with ⟨hreq, heq⟩ | ⟨_, habs⟩
        · have hkeq : k = i := by omega
          rw [hkeq] at hreq
          exact hreq
        · omega
    · intro h
      refine Or.inr ⟨i, hi, by omega, Or.inl ⟨h, by omega⟩⟩

/-! ## Encoder output shape (C3/C5 machinery) -/

theorem except_ok_bind {e a b : Type} (w : a) (f : a → Except e b) :
    (Except.ok w >>= f : Except e b) = f w := rfl

theorem except_bind_ok {e a b : Type} (x : Except e a) (f : a → Except e b) (v : b) :
    (x >>= f) = .ok v ↔ ∃ w, x = .ok w ∧ f w = .ok v := by
  cases x with
  | error err => simp [Bind.bind, Except.bind]
  | ok w => simp [Bind.bind, Except.bind]

theorem mapM_pairs_ok :
    ∀ (pids : List String) (f : String → Option Nat) (pairs : List (String × Nat)),
      pids.mapM (fun id => match f id with
        | some idx => Except.ok (id, idx)
        | none => Except.error EncodeError.internal) = .ok pairs →
      pairs = pids.map (fun p => (p, (f p).getD 0)) := by
  intro pids
  induction pids with
  | nil =>
      intro f pairs h
      simp only [List.mapM_nil, pure, Except.pure, Except.ok.injEq] at h
      simp [← h]
  | cons x xs ih =>
      intro f pairs h
      rw [List.mapM_cons] at h
      rw [except_bind_ok] at h
      obtain ⟨y, hy, h⟩ := h
      rw [except_bind_ok] at h
      obtain ⟨ys, hys, h⟩ := h
      cases hfx : f x with
      | none => rw [hfx] at hy; exact absurd hy (by simp)
      | some idx =>
          rw [hfx] at hy
          simp only [Except.ok.injEq] at hy
          simp only [pure, Except.pure, Except.ok.injEq] at h
          rw [← h, ← hy, ih f ys hys]
          simp [hfx]

theorem serialize_node_ok_shape (node : Node) (pids : List String)
    (f : String → Option Nat) (bytes : List Nat)
    (h : serialize_node node pids f = .ok bytes) :
    bytes = nodeBytesSpecF f pids node ∧
    (encSortedPairsF f pids).length ≤ 255 ∧ node.cpt_entries.length ≤ 255 := by
  simp only [serialize_node] at h
  rw [except_bind_ok] at h
  obtain ⟨pairs, hpairs, h⟩ := h
  have hpe : pairs = pids.map (fun p => (p, (f p).getD 0)) := mapM_pairs_ok pids f pairs hpairs
  subst hpe
  by_cases h1 : 255 < ((List.insertionSort byTopoIdx
      (pids.map (fun p => (p, (f p).getD 0)))).map Prod.snd).length
  · rw [if_pos h1] at h
    exact absurd h (by simp)
  · rw [if_neg h1] at h
    by_cases h2 : 255 < node.cpt_entries.length
    · rw [if_pos h2] at h
      exact absurd h (by simp)
    · rw [if_neg h2] at h
      simp only [Except.ok.injEq] at h
      rw [← h]
      simp only [List.length_map] at h1
      refine ⟨?_, by simpa [encSortedPairsF] using Nat.le_of_not_lt h1, Nat.le_of_not_lt h2⟩
      simp [nodeBytesSpecF, encSortedPairsF, List.length_map]

theorem encodeFold_ok (nodes : List Node) (topo_all : List String) :
    ∀ (topo : List String) (acc buffer : List Nat),
      (topo.foldlM (fun (acc : List Nat) id =>
        match nodesById nodes id with
        | none => Except.error EncodeError.internal
        | some node => do
            let bytes ← serialize_node node (get_node_parents node)
              (fun id => List.indexOf? id topo_all)
            Except.ok (acc ++ bytes)) acc) = .ok buffer →
      buffer = acc ++ (topo.map (fun id =>
        match nodesById nodes id with
        | some node => nodeBytesSpec topo_all node
        | none => [])).flatten := by
  intro topo
  induction topo with
  | nil =>
      intro acc buffer h
      simp only [List.foldlM_nil, pure, Except.pure, Except.ok.injEq] at h
      simp [← h]
  | cons id rest ih =>
      intro acc buffer h
      rw [List.foldlM_cons] at h
      cases hid : nodesById nodes id with
      | none =>
          rw [hid] at h
          simp only at h
          exact absurd h (by simp [Bind.bind, Except.bind])
      | some node =>
          rw [hid] at h
          simp only at h
          rw [except_bind_ok] at h
          obtain ⟨acc1, hacc1, hrest⟩ := h
          rw [except_bind_ok] at hacc1
          obtain ⟨bytes, hbytes, hok⟩ := hacc1
          simp only [pure, Except.pure, Except.ok.injEq] at hok
          obtain ⟨hshape, _, _⟩ := serialize_node_ok_shape node (get_node_parents node)
            (fun id => List.indexOf? id topo_all) bytes hbytes
          have := ih acc1 buffer hrest
          rw [this, ← hok, hshape]
          simp [nodeBytesSpec, hid, List.append_assoc]

theorem encodeFold_members (nodes : List Node) (topo_all : List String) :
    ∀ (topo : List String) (acc buffer : List Nat),
      (topo.foldlM (fun (acc : List Nat) id =>
        match nodesById nodes id with
        | none => Except.error EncodeError.internal
        | some node => do
            let bytes ← serialize_node node (get_node_parents node)
              (fun id => List.indexOf? id topo_all)
            Except.ok (acc ++ bytes)) acc) = .ok buffer →
      ∀ id ∈ topo, ∃ node, nodesById nodes id = some node := by
  intro topo
  induction topo with
  | nil =>
      intro acc buffer _ id hid
      simp at hid
  | cons x xs ih =>
      intro acc buffer h id hid
      rw [List.foldlM_cons] at h
      cases hx : nodesById nodes x with
      | none =>
          rw [hx] at h
          simp only at h
          exact absurd h (by simp [Bind.bind, Except.bind])
      | some node =>
          rw [hx] at h
          simp only at h
          rw [except_bind_ok] at h
          obtain ⟨acc1, hacc1, hrest⟩ := h
          rcases List.mem_cons.mp hid with hh | ht
          · exact ⟨node, by rw [hh]; exact hx⟩
          · exact ih acc1 buffer hrest id ht

theorem serialize_network_ok_decode (nodes : List Node) (sn : SerializedNetwork)
    (h : serialize_network nodes = .ok sn) :
    sn.data = (sn.topo_order.map (fun id =>
      match nodesById nodes id with
      | some node => nodeBytesSpec sn.topo_order node
      | none => [])).flatten ∧
    (∀ id ∈ sn.topo_order, ∃ node, nodesById nodes id = some node) := by
  simp only [serialize_network] at h
  split at h
  · exact absurd h (by simp)
  · split at h
    · exact absurd h (by simp)
    · split at h
      · exact absurd h (by simp)
      · rw [except_bind_ok] at h
        obtain ⟨topo, htopo, h⟩ := h
        split at h
        · exact absurd h (by simp)
        · rw [except_bind_ok] at h
          obtain ⟨buffer, hbuf, h⟩ := h
          simp only [Except.ok.injEq] at h
          rw [← h]
          exact ⟨encodeFold_ok nodes topo topo [] buffer hbuf,
            encodeFold_members nodes topo topo [] buffer hbuf⟩

/-! ## Claim theorems: serialized byte layout (C3) -/

/-- C3: a successful `serialize_network` emits, per node in topological
order, exactly `nodeBytesSpec`: one byte `num_parents`, the parents'
topological indices one byte each, one byte `num_cpt_entries`, then per entry
`ceil(num_parents/4)` pattern bytes followed by the probability's four
little-endian bytes (first and third conjuncts); the emitted parent indices
are sorted ascending (second conjunct); in the pattern bytes, sorted parent
`i` owns constraint bit `i % 4 + 4` and value bit `i % 4` of byte `i / 4`,
the constraint bit is set iff the entry maps the parent to `Some(_)` and the
value bit iff it maps it to `Some(true)` — `None` and absent parents leave
both clear (fourth conjunct); and the four probability bytes little-endian
decode back to the 32-bit pattern (fifth conjunct). -/
theorem claim_C3_serialized_layout :
    (∀ (nodes : List Node) (sn : SerializedNetwork),
      serialize_network nodes = .ok sn →
      sn.data = (sn.topo_order.map (fun id =>
        match nodesById nodes id with
        | some node => nodeBytesSpec sn.topo_order node
        | none => [])).flatten) ∧
    (∀ (f : String → Option Nat) (pids : List String),
      List.Sorted (fun a b : Nat => a ≤ b) ((encSortedPairsF f pids).map Prod.snd)) ∧
    (∀ (e : CptEntry) (ids : List String),
      serialize_cpt_entry e ids = patternBytesOf e ids ++ leBytes4 e.probability ∧
      (patternBytesOf e ids).length = (ids.length + 3) / 4 ∧
      (leBytes4 e.probability).length = 4) ∧
    (∀ (e : CptEntry) (ids : List String) (i : Nat), i < ids.length →
      (((patternBytesOf e ids).getD (i / 4) 0).testBit (i % 4 + 4) =
        constrainedAt e (ids.getD i "")) ∧
      (((patternBytesOf e ids).getD (i / 4) 0).testBit (i % 4) =
        requiredTrueAt e (ids.getD i ""))) ∧
    (∀ (x : Nat) (r : List Nat), le_f32 (leBytes4 x ++ r) = some (x % 2 ^ 32, r)) := by
  refine ⟨?_, ?_, ?_, ?_, ?_⟩
  · intro nodes sn h
    exact (serialize_network_ok_decode nodes sn h).1
  · intro f pids
    have hsorted : List.Sorted byTopoIdx (encSortedPairsF f pids) :=
      List.sorted_insertionSort byTopoIdx _
    exact List.Pairwise.map Prod.snd (fun a b hab => hab) hsorted
  · intro e ids
    exact ⟨rfl, patternBytesOf_length e ids, rfl⟩
  · intro e ids i hi
    exact patternBytesOf_testBit e ids i hi
  · intro x r
    exact le_f32_leBytes4 x r

/-- Witness for C3 on a two-node network (root `A`, child `B` with a
constrained entry on `A` and a wildcard default): the emitted buffer is the
per-node concatenation, and the single pattern byte of the constrained entry
has both the constraint bit (4) and the value bit (0) set. -/
theorem claim_C3_serialized_layout_witness :
    (([0, 1, 0, 0, 0, 63, 1, 0, 2, 17, 0, 0, 0, 63, 0, 0, 0, 0, 62] : List Nat) =
      ((["A", "B"] : List String).map (fun id =>
        match nodesById [⟨"B", [⟨[("A", some true)], 0x3F000000⟩, ⟨[], 0x3E000000⟩]⟩,
            ⟨"A", [⟨[], 0x3F000000⟩]⟩] id with
        | some node => nodeBytesSpec ["A", "B"] node
        | none => [])).flatten) ∧
    ((patternBytesOf ⟨[("A", some true)], 1⟩ ["A"]).getD 0 0).testBit 4 =
      constrainedAt ⟨[("A", some true)], 1⟩ "A" ∧
    ((patternBytesOf ⟨[("A", some true)], 1⟩ ["A"]).getD 0 0).testBit 0 =
      requiredTrueAt ⟨[("A", some true)], 1⟩ "A" := by
  refine ⟨?_, ?_, ?_⟩
  · exact claim_C3_serialized_layout.1
      [⟨"B", [⟨[("A", some true)], 0x3F000000⟩, ⟨[], 0x3E000000⟩]⟩,
        ⟨"A", [⟨[], 0x3F000000⟩]⟩]
      ⟨[0, 1, 0, 0, 0, 63, 1, 0, 2, 17, 0, 0, 0, 63, 0, 0, 0, 0, 62], ["A", "B"]⟩
      (by decide)
  · have h := (claim_C3_serialized_layout.2.2.2.1 ⟨[("A", some true)], 1⟩ ["A"] 0
      (by decide)).1
    simpa using h
  · have h := (claim_C3_serialized_layout.2.2.2.1 ⟨[("A", some true)], 1⟩ ["A"] 0
      (by decide)).2
    simpa using h

/-! ## Decoding an encoded buffer (C5 machinery) -/

theorem takeBytes_exact (a b : List Nat) : takeBytes a.length (a ++ b) = some (a, b) := by
  simp only [takeBytes, List.length_append]
  rw [if_pos (by omega)]
  rw [List.take_left, List.drop_left]

theorem entriesLoop_encoded (states : List Bool) (ids : List String) (np : Nat)
    (hnp : np = ids.length) :
    ∀ (entries : List CptEntry) (p0 : Option Nat) (acc : List CPTEntryParsed)
      (rest : List Nat),
      ∃ pr, entriesLoop np states entries.length
        (entries.flatMap (fun e => serialize_cpt_entry e ids) ++ rest) p0 acc =
        some ((acc ++ encEntriesParsed ids entries, pr), rest) := by
  intro entries
  induction entries with
  | nil =>
      intro p0 acc rest
      refine ⟨p0, ?_⟩
      simp [entriesLoop, encEntriesParsed]
  | cons e es ih =>
      intro p0 acc rest
      have hflat : (e :: es).flatMap (fun e => serialize_cpt_entry e ids) ++ rest =
          patternBytesOf e ids ++ (leBytes4 e.probability ++
            (es.flatMap (fun e => serialize_cpt_entry e ids) ++ rest)) := by
        simp [serialize_cpt_entry, List.append_assoc]
      have hparse : parseCptEntry np ((e :: es).flatMap
          (fun e => serialize_cpt_entry e ids) ++ rest) =
          some (⟨patternBytesOf e ids, e.probability % 2 ^ 32⟩,
            es.flatMap (fun e => serialize_cpt_entry e ids) ++ rest) := by
        rw [hflat]
        simp only [parseCptEntry, Option.bind_eq_bind]
        have htake : takeBytes ((np + 3) / 4) (patternBytesOf e ids ++
            (leBytes4 e.probability ++
              (es.flatMap (fun e => serialize_cpt_entry e ids) ++ rest))) =
            some (patternBytesOf e ids, leBytes4 e.probability ++
              (es.flatMap (fun e => serialize_cpt_entry e ids) ++ rest)) := by
          have hl : (np + 3) / 4 = (patternBytesOf e ids).length := by
            rw [patternBytesOf_length, hnp]
          rw [hl]
          exact takeBytes_exact _ _
        rw [htake]
        simp only [Option.some_bind]
        rw [le_f32_leBytes4]
        rfl
      have hlen : (e :: es).length = es.length + 1 := rfl
      rw [hlen]
      simp only [entriesLoop, Option.bind_eq_bind, hparse, Option.some_bind]
      obtain ⟨pr, hrec⟩ := ih
        (if p0.isNone &&
            CPTEntryParsed.matchesStates ⟨patternBytesOf e ids, e.probability % 2 ^ 32⟩ states
          then some (⟨patternBytesOf e ids,
            e.probability % 2 ^ 32⟩ : CPTEntryParsed).probability else p0)
        (acc ++ [⟨patternBytesOf e ids, e.probability % 2 ^ 32⟩]) rest
      refine ⟨pr, ?_⟩
      rw [hrec]
      simp [encEntriesParsed, List.append_assoc]

theorem process_node_encoded (samples : BitSet) (f : String → Option Nat)
    (pids : List String) (node : Node) (rest : List Nat) :
    ∃ pr, process_node samples (nodeBytesSpecF f pids node ++ rest) =
      some ((((encSortedPairsF f pids).map Prod.snd),
        encEntriesParsed ((encSortedPairsF f pids).map Prod.fst) node.cpt_entries,
        pr), rest) := by
  have hbytes : nodeBytesSpecF f pids node ++ rest =
      (encSortedPairsF f pids).length :: ((encSortedPairsF f pids).map Prod.snd ++
        (node.cpt_entries.length ::
          (node.cpt_entries.flatMap (fun e => serialize_cpt_entry e
            ((encSortedPairsF f pids).map Prod.fst)) ++ rest))) := by
    simp [nodeBytesSpecF, List.append_assoc]
  obtain ⟨pr, hloop⟩ := entriesLoop_encoded
    (((encSortedPairsF f pids).map Prod.snd).map (fun p => samples.contains p))
    ((encSortedPairsF f pids).map Prod.fst)
    ((encSortedPairsF f pids).map Prod.snd).length
    (by simp) node.cpt_entries none [] rest
  refine ⟨pr, ?_⟩
  rw [hbytes]
  simp only [process_node, Option.bind_eq_bind, le_u8, Option.some_bind]
  have htake : takeBytes (encSortedPairsF f pids).length
      ((encSortedPairsF f pids).map Prod.snd ++
        (node.cpt_entries.length ::
          (node.cpt_entries.flatMap (fun e => serialize_cpt_entry e
            ((encSortedPairsF f pids).map Prod.fst)) ++ rest))) =
      some ((encSortedPairsF f pids).map Prod.snd,
        node.cpt_entries.length ::
          (node.cpt_entries.flatMap (fun e => serialize_cpt_entry e
            ((encSortedPairsF f pids).map Prod.fst)) ++ rest)) := by
    have hl : (encSortedPairsF f pids).length =
        ((encSortedPairsF f pids).map Prod.snd).length := by simp
    rw [hl]
    exact takeBytes_exact _ _
  rw [htake]
  simp only [Option.some_bind]
  rw [hloop]
  simp

theorem decode_flatten (nodes : List Node) (topo_all : List String) (samples : BitSet) :
    ∀ (topo : List String) (rest : List Nat),
      (∀ id ∈ topo, ∃ node, nodesById nodes id = some node) →
      decode_nodes samples topo.length
        ((topo.map (fun id => match nodesById nodes id with
          | some node => nodeBytesSpec topo_all node
          | none => [])).flatten ++ rest) =
      some (topo.map (fun id => match nodesById nodes id with
        | some node => decodedNodeSpec topo_all node
        | none => ([], [])), rest) := by
  intro topo
  induction topo with
  | nil =>
      intro rest _
      simp [decode_nodes]
  | cons id rtopo ih =>
      intro rest hmem
      obtain ⟨node, hid⟩ := hmem id (by simp)
      have hrest : ∀ i ∈ rtopo, ∃ node, nodesById nodes i = some node :=
        fun i hi => hmem i (by simp [hi])
      have hflat : ((id :: rtopo).map (fun id => match nodesById nodes id with
          | some node => nodeBytesSpec topo_all node
          | none => [])).flatten ++ rest =
          nodeBytesSpecF (fun i => List.indexOf? i topo_all) (get_node_parents node) node ++
            (((rtopo.map (fun id => match nodesById nodes id with
              | some node => nodeBytesSpec topo_all node
              | none => [])).flatten) ++ rest) := by
        simp [hid, nodeBytesSpec, List.append_assoc]
      obtain ⟨pr, hpn⟩ := process_node_encoded samples
        (fun i => List.indexOf? i topo_all) (get_node_parents node) node
        (((rtopo.map (fun id => match nodesById nodes id with
          | some node => nodeBytesSpec topo_all node
          | none => [])).flatten) ++ rest)
      have hlen : (id :: rtopo).length = rtopo.length + 1 := rfl
      rw [hlen, hflat]
      simp only [decode_nodes, Option.bind_eq_bind, hpn, Option.some_bind]
      rw [ih rest hrest]
      simp [hid, decodedNodeSpec]

theorem sampleNodes_decode_left :
    ∀ (idxs : List Nat) (input : List Nat) (i : Option Intervention) (s : BitSet)
      (g : RngState) (res : BitSet) (g2 : RngState) (left : List Nat)
      (s2 : BitSet) (tr : List (List Nat × List CPTEntryParsed)) (left2 : List Nat),
      sampleNodes i idxs input s g = .ok (res, g2, left) →
      decode_nodes s2 idxs.length input = some (tr, left2) →
      left = left2 := by
  intro idxs
  induction idxs with
  | nil =>
      intro input i s g res g2 left s2 tr left2 ha hb
      simp only [sampleNodes, Except.ok.injEq, Prod.mk.injEq] at ha
      simp only [List.length_nil, decode_nodes, Option.some_inj, Prod.mk.injEq] at hb
      rw [← ha.2.2, ← hb.2]
  | cons node rest ih =>
      intro input i s g res g2 left s2 tr left2 ha hb
      simp only [sampleNodes] at ha
      cases hpn : process_node s input with
      | none =>
          simp only [hpn] at ha
          exact absurd ha (by simp)
      | some out =>
          obtain ⟨parents, entries, rest4, hall, hshape⟩ := process_node_run s input out hpn
          have hpn1 := hall s
          have hpn2 := hall s2
          have hlen : (node :: rest).length = rest.length + 1 := rfl
          rw [hlen] at hb
          simp only [decode_nodes, Option.bind_eq_bind, hpn2, Option.some_bind] at hb
          cases hdec : decode_nodes s2 rest.length rest4 with
          | none =>
              rw [hdec] at hb
              exact absurd hb (by simp)
          | some out2 =>
              obtain ⟨tl2, rest2⟩ := out2
              rw [hdec] at hb
              simp only [Option.some_bind, Option.some_inj, Prod.mk.injEq] at hb
              cases hsel : (entries.find? (fun e =>
                  e.matchesStates (parents.map (fun p => s.contains p)))).map
                    CPTEntryParsed.probability with
              | none =>
                  simp only [hpn1, hsel] at ha
                  exact absurd ha (by simp)
              | some pa =>
                  simp only [hpn1, hsel] at ha
                  rw [← hb.2]
                  by_cases ht : isInterventionTarget i node = true
                  · rw [if_pos ht] at ha
                    exact ih rest4 i s g res g2 left s2 tl2 rest2 ha hdec
                  · rw [if_neg ht] at ha
                    cases hrb : random_bool g pa with
                    | error e =>
                        simp only [hrb] at ha
                        exact absurd ha (by simp)
                    | ok bg =>
                        simp only [hrb] at ha
                        exact ih rest4 i _ _ res g2 left s2 tl2 rest2 ha hdec

/-! ## Claim theorems: encode/decode round trip (C5) -/

/-- C5: running the sampling-engine parser over a buffer produced by
`serialize_network`, once per node of the returned topological order,
recovers for every node exactly the parent index list and CPT patterns
(and 32-bit probability patterns) that were encoded, for any presence set,
and consumes the buffer exactly (first conjunct); consequently every
successful `sample` run over the buffer with `num_nodes = |topo_order|`
finishes with no bytes remaining (second conjunct). -/
theorem claim_C5_roundtrip_exact :
    ∀ (nodes : List Node) (sn : SerializedNetwork),
      serialize_network nodes = .ok sn →
      (∀ samples : BitSet,
        decode_nodes samples sn.topo_order.length sn.data =
          some (sn.topo_order.map (fun id =>
            match nodesById nodes id with
            | some node => decodedNodeSpec sn.topo_order node
            | none => ([], [])), [])) ∧
      (∀ (intervention : Option Intervention) (g : RngState) (res : BitSet)
        (g2 : RngState) (left : List Nat),
        sample sn.data sn.topo_order.length intervention g = .ok (res, g2, left) →
        left = []) := by
  intro nodes sn h
  obtain ⟨hdata, hmem⟩ := serialize_network_ok_decode nodes sn h
  have hdec : ∀ samples : BitSet,
      decode_nodes samples sn.topo_order.length sn.data =
        some (sn.topo_order.map (fun id =>
          match nodesById nodes id with
          | some node => decodedNodeSpec sn.topo_order node
          | none => ([], [])), []) := by
    intro samples
    have := decode_flatten nodes sn.topo_order samples sn.topo_order [] hmem
    rw [List.append_nil] at this
    rw [hdata]
    exact this
  refine ⟨hdec, ?_⟩
  intro intervention g res g2 left hrun
  simp only [sample] at hrun
  have hdlen : (List.range sn.topo_order.length).length = sn.topo_order.length :=
    List.length_range ..
  have hd := hdec BitSet.new
  rw [← hdlen] at hd
  exact sampleNodes_decode_left (List.range sn.topo_order.length) sn.data intervention
    _ _ res g2 left BitSet.new _ [] hrun hd

/-- Witness for C5 on the two-node network of the C3 witness: the decoder
replays the buffer to exactly the encoded parent lists and patterns with
nothing left over, and a concrete successful sampling pass leaves nothing
unconsumed. -/
theorem claim_C5_roundtrip_exact_witness :
    (decode_nodes BitSet.new 2
        [0, 1, 0, 0, 0, 63, 1, 0, 2, 17, 0, 0, 0, 63, 0, 0, 0, 0, 62] =
      some ((["A", "B"] : List String).map (fun id =>
        match nodesById [⟨"B", [⟨[("A", some true)], 0x3F000000⟩, ⟨[], 0x3E000000⟩]⟩,
            ⟨"A", [⟨[], 0x3F000000⟩]⟩] id with
        | some node => decodedNodeSpec ["A", "B"] node
        | none => ([], [])), [])) ∧
    ([] : List Nat) = [] := by
  constructor
  · exact (claim_C5_roundtrip_exact
      [⟨"B", [⟨[("A", some true)], 0x3F000000⟩, ⟨[], 0x3E000000⟩]⟩,
        ⟨"A", [⟨[], 0x3F000000⟩]⟩]
      ⟨[0, 1, 0, 0, 0, 63, 1, 0, 2, 17, 0, 0, 0, 63, 0, 0, 0, 0, 62], ["A", "B"]⟩
      (by decide)).1 BitSet.new
  · exact (claim_C5_roundtrip_exact
      [⟨"B", [⟨[("A", some true)], 0x3F000000⟩, ⟨[], 0x3E000000⟩]⟩,
        ⟨"A", [⟨[], 0x3F000000⟩]⟩]
      ⟨[0, 1, 0, 0, 0, 63, 1, 0, 2, 17, 0, 0, 0, 63, 0, 0, 0, 0, 62], ["A", "B"]⟩
      (by decide)).2 none ⟨fun _ => false, 0⟩ BitSet.new ⟨fun _ => false, 2⟩ [] (by rfl)

/-! ## Kahn topological sort (C4/C7 machinery) -/

theorem nodesById_mem (nodes : List Node) (x : String) (n : Node)
    (h : nodesById nodes x = some n) : n ∈ nodes ∧ n.id = x := by
  have hm := List.mem_of_find?_eq_some h
  have hp := List.find?_some h
  simp only [decide_eq_true_eq] at hp
  exact ⟨hm, hp⟩

theorem nodesById_of_mem (nodes : List Node)
    (hnodup : (nodes.map (fun n => n.id)).Nodup) (n : Node) (hn : n ∈ nodes) :
    nodesById nodes n.id = some n := by
  induction nodes with
  | nil => simp at hn
  | cons m rest ih =>
      simp only [List.map_cons, List.nodup_cons] at hnodup
      rcases List.mem_cons.mp hn with h | h
      · subst h
        simp [nodesById, List.find?_cons_of_pos]
      · by_cases hid : m.id = n.id
        · exfalso
          apply hnodup.1
          rw [hid]
          exact List.mem_map.mpr ⟨n, h, rfl⟩
        · have := ih hnodup.2 h
          simp only [nodesById] at *
          rw [List.find?_cons_of_neg]
          · exact this
          · simp [hid]

theorem nodeParents_eq_nil_of_not_node (nodes : List Node) (x : String)
    (h : nodesById nodes x = none) : nodeParents nodes x = [] := by
  simp [nodeParents, h]

theorem mem_childrenOf_iff (nodes : List Node)
    (hnodup : (nodes.map (fun n => n.id)).Nodup) (p x : String) :
    x ∈ childrenOf nodes p ↔ p ∈ nodeParents nodes x := by
  constructor
  · intro h
    simp only [childrenOf, List.mem_map, List.mem_filter] at h
    obtain ⟨n, ⟨hn, hpn⟩, hx⟩ := h
    simp only [decide_eq_true_eq] at hpn
    subst hx
    rw [nodeParents, nodesById_of_mem nodes hnodup n hn]
    exact hpn
  · intro h
    simp only [nodeParents] at h
    cases hx : nodesById nodes x with
    | none => rw [hx] at h; simp at h
    | some n =>
        rw [hx] at h
        obtain ⟨hn, hid⟩ := nodesById_mem nodes x n hx
        simp only [childrenOf, List.mem_map, List.mem_filter]
        exact ⟨n, ⟨hn, by simp [h]⟩, hid⟩

theorem childrenOf_nodup (nodes : List Node)
    (hnodup : (nodes.map (fun n => n.id)).Nodup) (p : String) :
    (childrenOf nodes p).Nodup := by
  have hsub : (childrenOf nodes p).Sublist (nodes.map (fun n => n.id)) := by
    simp only [childrenOf]
    exact (List.filter_sublist nodes).map (fun n => n.id)
  exact hsub.nodup hnodup

theorem mem_allKahnIds_of_node (nodes : List Node) (n : Node) (hn : n ∈ nodes) :
    n.id ∈ allKahnIds nodes := by
  simp only [allKahnIds, List.mem_dedup, List.mem_flatMap]
  exact ⟨n, hn, by simp⟩

theorem childrenOf_subset_allKahnIds (nodes : List Node) (p : String) :
    childrenOf nodes p ⊆ allKahnIds nodes := by
  intro x hx
  simp only [childrenOf, List.mem_map, List.mem_filter] at hx
  obtain ⟨n, ⟨hn, _⟩, hid⟩ := hx
  subst hid
  exact mem_allKahnIds_of_node nodes n hn

theorem mem_nodeParents_allKahnIds (nodes : List Node) (x p : String)
    (hp : p ∈ nodeParents nodes x) : p ∈ allKahnIds nodes := by
  simp only [nodeParents] at hp
  cases hx : nodesById nodes x with
  | none => rw [hx] at hp; simp at hp
  | some n =>
      rw [hx] at hp
      obtain ⟨hn, _⟩ := nodesById_mem nodes x n hx
      simp only [allKahnIds, List.mem_dedup, List.mem_flatMap]
      exact ⟨n, hn, by simp [hp]⟩

theorem kahnFold_spec (cs : List String) :
    ∀ (deg : String → Nat) (q : List String), cs.Nodup →
      ((kahnFold cs deg q).1 = fun x => if x ∈ cs then deg x - 1 else deg x) ∧
      (kahnFold cs deg q).2 = q ++ cs.filter (fun c => decide (deg c - 1 = 0)) := by
  induction cs with
  | nil =>
      intro deg q _
      constructor
      · funext x
        simp [kahnFold]
      · simp [kahnFold]
  | cons c cs' ih =>
      intro deg q hnd
      simp only [List.nodup_cons] at hnd
      have hcs' : c ∉ cs' := hnd.1
      have hfold : kahnFold (c :: cs') deg q =
          kahnFold cs' (fun x => if x = c then deg c - 1 else deg x)
            (if deg c - 1 = 0 then q ++ [c] else q) := by
        simp [kahnFold, List.foldl_cons]
      rw [hfold]
      obtain ⟨ihdeg, ihq⟩ := ih (fun x => if x = c then deg c - 1 else deg x)
        (if deg c - 1 = 0 then q ++ [c] else q) hnd.2
      constructor
      · rw [ihdeg]
        funext x
        by_cases hx : x ∈ cs'
        · have hxc : x ≠ c := fun hc => hcs' (hc ▸ hx)
          simp [hx, hxc, List.mem_cons]
        · by_cases hxc : x = c
          · subst hxc
            simp [hx, hcs']
          · simp [hx, hxc, List.mem_cons]
      · rw [ihq]
        have hfc : cs'.filter (fun d =>
            decide ((if d = c then deg c - 1 else deg d) - 1 = 0)) =
            cs'.filter (fun d => decide (deg d - 1 = 0)) := by
          apply List.filter_congr
          intro d hd
          have : d ≠ c := fun hc => hcs' (hc ▸ hd)
          simp [this]
        rw [hfc]
        by_cases hdc : deg c - 1 = 0
        · simp [hdc, List.filter_cons, List.append_assoc]
        · simp [hdc, List.filter_cons]

theorem sum_map_update_le (A : List String) (deg : String → Nat) (c : String) :
    A.Nodup → c ∈ A → 1 ≤ deg c →
      (A.map (fun x => if x = c then deg c - 1 else deg x)).sum + 1 = (A.map deg).sum := by
  induction A with
  | nil => intro _ h; simp at h
  | cons a A' ih =>
      intro hA hc hdeg
      simp only [List.nodup_cons] at hA
      rcases List.mem_cons.mp hc with h | h
      · subst h
        have hmap : A'.map (fun x => if x = c then deg c - 1 else deg x) = A'.map deg := by
          apply List.map_congr_left
          intro x hx
          have hxc : x ≠ c := fun hc2 => hA.1 (hc2 ▸ hx)
          simp [hxc]
        simp only [List.map_cons, List.sum_cons, hmap, if_true]
        omega
      · have hac : a ≠ c := fun hc2 => hA.1 (hc2 ▸ h)
        have := ih hA.2 h hdeg
        simp only [List.map_cons, List.sum_cons, if_neg hac]
        omega

theorem kahnFold_measure_le (A : List String) :
    ∀ (cs : List String) (deg : String → Nat) (q : List String),
      cs.Nodup → A.Nodup → cs ⊆ A → (∀ c ∈ cs, 1 ≤ deg c) →
      (kahnFold cs deg q).2.length + (A.map (kahnFold cs deg q).1).sum ≤
        q.length + (A.map deg).sum := by
  intro cs
  induction cs with
  | nil =>
      intro deg q _ _ _ _
      simp [kahnFold]
  | cons c cs' ih =>
      intro deg q hnd hA hsub hdeg
      simp only [List.nodup_cons] at hnd
      have hfold : kahnFold (c :: cs') deg q =
          kahnFold cs' (fun x => if x = c then deg c - 1 else deg x)
            (if deg c - 1 = 0 then q ++ [c] else q) := by
        simp [kahnFold, List.foldl_cons]
      rw [hfold]
      have hsum := sum_map_update_le A deg c hA (hsub (by simp)) (hdeg c (by simp))
      have hrec := ih (fun x => if x = c then deg c - 1 else deg x)
        (if deg c - 1 = 0 then q ++ [c] else q) hnd.2 hA
        (fun x hx => hsub (by simp [hx]))
        (by
          intro d hd
          have : d ≠ c := fun hc => hnd.1 (hc ▸ hd)
          simp only [if_neg this]
          exact hdeg d (by simp [hd]))
      have hqlen : (if deg c - 1 = 0 then q ++ [c] else q).length ≤ q.length + 1 := by
        by_cases h : deg c - 1 = 0 <;> simp [h]
      omega

theorem nodeParents_nodup (nodes : List Node) (x : String) :
    (nodeParents nodes x).Nodup := by
  simp only [nodeParents]
  cases nodesById nodes x with
  | none => simp
  | some n => exact List.nodup_dedup _

theorem get_node_parents_nodup (n : Node) : (get_node_parents n).Nodup :=
  List.nodup_dedup _

theorem filter_notin_append_singleton (P : List String) :
    ∀ (R : List String) (id : String), P.Nodup → id ∉ R →
      (P.filter (fun p => decide (p ∉ R ++ [id]))).length =
        (P.filter (fun p => decide (p ∉ R))).length - (if id ∈ P then 1 else 0) := by
  induction P with
  | nil => intro R id _ _; simp
  | cons p P' ih =>
      intro R id hnd hid
      simp only [List.nodup_cons] at hnd
      have hrec := ih R id hnd.2 hid
      by_cases hpid : p = id
      · subst hpid
        have h3 : p ∉ P' := hnd.1
        have hL : (p :: P').filter (fun q => decide (q ∉ R ++ [p])) =
            P'.filter (fun q => decide (q ∉ R ++ [p])) := by
          simp [List.filter_cons]
        have hR : (p :: P').filter (fun q => decide (q ∉ R)) =
            p :: P'.filter (fun q => decide (q ∉ R)) := by
          simp [List.filter_cons, hid]
        rw [hL, hR, hrec]
        simp [h3]
      · have hif : (if id ∈ p :: P' then (1 : Nat) else 0) =
            (if id ∈ P' then 1 else 0) := by
          by_cases h : id ∈ P'
          · simp [h, List.mem_cons]
          · have hni : id ∉ p :: P' := by
              simp only [List.mem_cons, not_or]
              exact ⟨fun hc => hpid hc.symm, h⟩
            simp [h, hni]
        by_cases hpR : p ∈ R
        · have hL : (p :: P').filter (fun q => decide (q ∉ R ++ [id])) =
              P'.filter (fun q => decide (q ∉ R ++ [id])) := by
            simp [List.filter_cons, hpR]
          have hR : (p :: P').filter (fun q => decide (q ∉ R)) =
              P'.filter (fun q => decide (q ∉ R)) := by
            simp [List.filter_cons, hpR]
          rw [hL, hR, hrec, hif]
        · have hL : (p :: P').filter (fun q => decide (q ∉ R ++ [id])) =
              p :: P'.filter (fun q => decide (q ∉ R ++ [id])) := by
            simp [List.filter_cons, hpR, hpid]
          have hR : (p :: P').filter (fun q => decide (q ∉ R)) =
              p :: P'.filter (fun q => decide (q ∉ R)) := by
            simp [List.filter_cons, hpR]
          have hge : id ∈ P' → 1 ≤ (P'.filter (fun q => decide (q ∉ R))).length := by
            intro hidP
            apply List.length_pos_of_mem
            apply List.mem_filter.mpr
            exact ⟨hidP, by simp [hid]⟩
          rw [hL, hR, List.length_cons, List.length_cons, hrec, hif]
          by_cases h : id ∈ P'
          · have := hge h
            simp only [if_pos h]
            omega
          · simp only [if_neg h]
            omega

/-- The master invariant of the Kahn loop.  Given a consistent state —
in-degrees count each id's parents not yet emitted, queued ids have degree
zero, queue and result are duplicate-free and disjoint, every emitted id's
parents were emitted strictly before it, everything lives in the in-degree
key set, every key is emitted, queued, or has positive degree, and the fuel
exceeds (queue length) + (total degree) — the final result is duplicate-free,
lives in the key set, orders every parent strictly before its child, and any
key left out has a parent left out. -/
theorem kahnLoop_master (nodes : List Node)
    (hnodup : (nodes.map (fun n => n.id)).Nodup) :
    ∀ (fuel : Nat) (queue : List String) (deg : String → Nat) (result : List String),
      queue.length + ((allKahnIds nodes).map deg).sum < fuel →
      (∀ x, deg x = ((nodeParents nodes x).filter (fun p => decide (p ∉ result))).length) →
      (∀ q ∈ queue, deg q = 0) →
      result.Nodup → queue.Nodup →
      (∀ q ∈ queue, q ∉ result) →
      (∀ n ∈ result, ∀ p ∈ nodeParents nodes n, ∃ l1 l2, result = l1 ++ n :: l2 ∧ p ∈ l1) →
      queue ⊆ allKahnIds nodes → result ⊆ allKahnIds nodes →
      (∀ x ∈ allKahnIds nodes, x ∈ result ∨ x ∈ queue ∨ deg x ≠ 0) →
      ((kahnLoop nodes fuel queue deg result).Nodup ∧
       (kahnLoop nodes fuel queue deg result) ⊆ allKahnIds nodes ∧
       (∀ n ∈ kahnLoop nodes fuel queue deg result, ∀ p ∈ nodeParents nodes n,
         ∃ l1 l2, kahnLoop nodes fuel queue deg result = l1 ++ n :: l2 ∧ p ∈ l1) ∧
       (∀ x ∈ allKahnIds nodes, x ∉ kahnLoop nodes fuel queue deg result →
         ∃ p ∈ nodeParents nodes x, p ∉ kahnLoop nodes fuel queue deg result)) := by
  intro fuel
  induction fuel with
  | zero =>
      intro queue deg result hfuel
      exact absurd hfuel (by omega)
  | succ fuel ih =>
      intro queue deg result hfuel hA hB hndR hndQ hdisj hD hQsub hRsub hE
      cases queue with
      | nil =>
          have hloop : kahnLoop nodes (fuel + 1) [] deg result = result := rfl
          rw [hloop]
          refine ⟨hndR, hRsub, hD, ?_⟩
          intro x hx hxr
          rcases hE x hx with h | h | h
          · exact absurd h hxr
          · simp at h
          · have := hA x
            rw [this] at h
            have hne : (nodeParents nodes x).filter (fun p => decide (p ∉ result)) ≠ [] := by
              intro hc
              rw [hc] at h
              simp at h
            cases hfil : (nodeParents nodes x).filter (fun p => decide (p ∉ result)) with
            | nil => exact absurd hfil hne
            | cons p ps =>
                have hp : p ∈ (nodeParents nodes x).filter (fun p => decide (p ∉ result)) := by
                  rw [hfil]; simp
                have := List.mem_filter.mp hp
                refine ⟨p, this.1, ?_⟩
                have := this.2
                simp only [decide_eq_true_eq] at this
                exact this
      | cons id qs =>
          -- facts about the popped id and its children
          have hdeg_id : deg id = 0 := hB id (by simp)
          have hid_not_res : id ∉ result := hdisj id (by simp)
          have hparents_id : ∀ p ∈ nodeParents nodes id, p ∈ result := by
            intro p hp
            have h0 := hA id
            rw [hdeg_id] at h0
            have hnil : (nodeParents nodes id).filter (fun p => decide (p ∉ result)) = [] :=
              List.length_eq_zero.mp h0.symm
            have := List.filter_eq_nil_iff.mp hnil p hp
            simp only [decide_eq_true_eq] at this
            exact Decidable.not_not.mp this
          have hcs_nd : (childrenOf nodes id).Nodup := childrenOf_nodup nodes hnodup id
          have hcs_deg1 : ∀ c ∈ childrenOf nodes id, 1 ≤ deg c := by
            intro c hc
            have hidp : id ∈ nodeParents nodes c := (mem_childrenOf_iff nodes hnodup id c).mp hc
            have : id ∈ (nodeParents nodes c).filter (fun p => decide (p ∉ result)) :=
              List.mem_filter.mpr ⟨hidp, by simp [hid_not_res]⟩
            rw [hA c]
            exact List.length_pos_of_mem this
          have hc_notin_result : ∀ c ∈ childrenOf nodes id, c ∉ result := by
            intro c hc hcr
            have hall : ∀ p ∈ nodeParents nodes c, p ∈ result := by
              intro p hp
              obtain ⟨l1, l2, hsplit, hpl1⟩ := hD c hcr p hp
              rw [hsplit]
              simp [hpl1]
            have : deg c = 0 := by
              rw [hA c]
              rw [List.length_eq_zero]
              apply List.filter_eq_nil_iff.mpr
              intro p hp
              simp [hall p hp]
            have := hcs_deg1 c hc
            omega
          have hc_ne_id : ∀ c ∈ childrenOf nodes id, c ≠ id := by
            intro c hc hcid
            have hidp := (mem_childrenOf_iff nodes hnodup id c).mp hc
            rw [hcid] at hidp
            have : id ∈ (nodeParents nodes id).filter (fun p => decide (p ∉ result)) :=
              List.mem_filter.mpr ⟨hidp, by simp [hid_not_res]⟩
            have hpos := List.length_pos_of_mem this
            rw [← hA id] at hpos
            omega
          obtain ⟨hfd, hfq⟩ := kahnFold_spec (childrenOf nodes id) deg qs hcs_nd
          have hloop : kahnLoop nodes (fuel + 1) (id :: qs) deg result =
              kahnLoop nodes fuel (kahnFold (childrenOf nodes id) deg qs).2
                (kahnFold (childrenOf nodes id) deg qs).1 (result ++ [id]) := rfl
          rw [hloop, hfd, hfq]
          set deg1 : String → Nat :=
            fun x => if x ∈ childrenOf nodes id then deg x - 1 else deg x with hdeg1
          set enq : List String :=
            (childrenOf nodes id).filter (fun c => decide (deg c - 1 = 0)) with henq
          -- fuel bookkeeping
          have hmeasure : (qs ++ enq).length + ((allKahnIds nodes).map deg1).sum ≤
              qs.length + ((allKahnIds nodes).map deg).sum := by
            have := kahnFold_measure_le (allKahnIds nodes) (childrenOf nodes id) deg qs
              hcs_nd (List.nodup_dedup _) (childrenOf_subset_allKahnIds nodes id) hcs_deg1
            rw [hfd, hfq] at this
            exact this
          apply ih (qs ++ enq) deg1 (result ++ [id])
          · simp only [List.length_cons] at hfuel
            omega
          · -- (A) degrees count unemitted parents
            intro x
            have hcount := filter_notin_append_singleton (nodeParents nodes x) result id
              (nodeParents_nodup nodes x) hid_not_res
            by_cases hx : x ∈ childrenOf nodes id
            · have hidp := (mem_childrenOf_iff nodes hnodup id x).mp hx
              have : deg1 x = deg x - 1 := by rw [hdeg1]; simp [hx]
              rw [this, hA x, hcount, if_pos hidp]
            · have hidp : id ∉ nodeParents nodes x := by
                intro hc
                exact hx ((mem_childrenOf_iff nodes hnodup id x).mpr hc)
              have : deg1 x = deg x := by rw [hdeg1]; simp [hx]
              rw [this, hA x, hcount, if_neg hidp]
              omega
          · -- (B) queued ids have degree zero
            intro q hq
            rcases List.mem_append.mp hq with h | h
            · have h0 := hB q (by simp [h])
              rw [hdeg1]
              by_cases hqc : q ∈ childrenOf nodes id <;> simp [hqc, h0]
            · have := List.mem_filter.mp h
              have h0 : deg q - 1 = 0 := by simpa using this.2
              rw [hdeg1]
              simp [this.1, h0]
          · -- result' nodup
            rw [List.nodup_append]
            refine ⟨hndR, by simp, ?_⟩
            intro a ha hc
            rw [List.mem_singleton] at hc
            exact hid_not_res (hc ▸ ha)
          · -- queue' nodup
            rw [List.nodup_append]
            simp only [List.nodup_cons] at hndQ
            refine ⟨hndQ.2, hcs_nd.filter _, ?_⟩
            intro a ha hae
            have h0 := hB a (by simp [ha])
            have := List.mem_filter.mp hae
            have h1 := hcs_deg1 a this.1
            omega
          · -- queue'-result' disjointness
            intro q hq
            simp only [List.nodup_cons] at hndQ
            rcases List.mem_append.mp hq with h | h
            · simp only [List.mem_append, List.mem_singleton, not_or]
              exact ⟨hdisj q (by simp [h]), fun hc => hndQ.1 (hc ▸ h)⟩
            · have hmem := List.mem_filter.mp h
              simp only [List.mem_append, List.mem_singleton, not_or]
              exact ⟨hc_notin_result q hmem.1, hc_ne_id q hmem.1⟩
          · -- (D) ordering
            intro n hn p hp
            rcases List.mem_append.mp hn with h | h
            · obtain ⟨l1, l2, hsplit, hpl1⟩ := hD n h p hp
              exact ⟨l1, l2 ++ [id], by rw [hsplit]; simp, hpl1⟩
            · simp only [List.mem_singleton] at h
              subst h
              exact ⟨result, [], rfl, hparents_id p hp⟩
          · -- queue' in key set
            intro q hq
            rcases List.mem_append.mp hq with h | h
            · exact hQsub (by simp [h])
            · exact childrenOf_subset_allKahnIds nodes id (List.mem_filter.mp h).1
          · -- result' in key set
            intro r hr
            rcases List.mem_append.mp hr with h | h
            · exact hRsub h
            · simp only [List.mem_singleton] at h
              exact h ▸ hQsub (by simp)
          · -- (E) every key is emitted, queued or pending
            intro x hx
            rcases hE x hx with h | h | h
            · exact Or.inl (by simp [h])
            · rcases List.mem_cons.mp h with h | h
              · exact Or.inl (by simp [h])
              · exact Or.inr (Or.inl (by simp [h]))
            · by_cases hxc : x ∈ childrenOf nodes id
              · by_cases hz : deg x - 1 = 0
                · refine Or.inr (Or.inl ?_)
                  simp only [List.mem_append]
                  exact Or.inr (List.mem_filter.mpr ⟨hxc, by simp [hz]⟩)
                · refine Or.inr (Or.inr ?_)
                  rw [hdeg1]
                  simp [hxc, hz]
              · refine Or.inr (Or.inr ?_)
                rw [hdeg1]
                simp [hxc, h]

/-- The initial Kahn state satisfies the master invariant, so the full run's
result is duplicate-free, lives in the key set, orders every parent before
its child, and leaves out only keys with a left-out parent. -/
theorem kahnRun_facts (nodes : List Node)
    (hnodup : (nodes.map (fun n => n.id)).Nodup) :
    (kahnRun nodes).Nodup ∧
    (kahnRun nodes) ⊆ allKahnIds nodes ∧
    (∀ n ∈ kahnRun nodes, ∀ p ∈ nodeParents nodes n,
      ∃ l1 l2, kahnRun nodes = l1 ++ n :: l2 ∧ p ∈ l1) ∧
    (∀ x ∈ allKahnIds nodes, x ∉ kahnRun nodes →
      ∃ p ∈ nodeParents nodes x, p ∉ kahnRun nodes) := by
  apply kahnLoop_master nodes hnodup
  · simp only [kahnFuel]
    have := List.length_filter_le (fun id => decide (indeg0 nodes id = 0)) (allKahnIds nodes)
    omega
  · intro x
    simp [indeg0]
  · intro q hq
    have := List.mem_filter.mp hq
    simpa using this.2
  · exact List.nodup_nil
  · exact (List.nodup_dedup _).filter _
  · simp
  · simp
  · exact fun x hx => (List.mem_filter.mp hx).1
  · simp
  · intro x hx
    by_cases h : indeg0 nodes x = 0
    · exact Or.inr (Or.inl (List.mem_filter.mpr ⟨hx, by simp [h]⟩))
    · exact Or.inr (Or.inr h)

theorem topological_sort_ok_eq (nodes : List Node) (topo : List String)
    (h : topological_sort nodes = .ok topo) :
    topo = kahnRun nodes ∧ topo.length = nodes.length := by
  simp only [topological_sort] at h
  split at h
  next h1 => exact absurd h (by simp)
  next h1 =>
    split at h
    next h2 => exact absurd h (by simp)
    next h2 =>
      simp only [Except.ok.injEq] at h
      subst h
      exact ⟨rfl, by omega⟩

theorem topological_sort_error_of_short (nodes : List Node)
    (h : (kahnRun nodes).length < nodes.length) :
    topological_sort nodes = .error .cycleDetected := by
  simp only [topological_sort]
  rw [if_pos h]

/-- Validation facts recoverable from a successful encode. -/
theorem serialize_network_ok_validation (nodes : List Node) (sn : SerializedNetwork)
    (h : serialize_network nodes = .ok sn) :
    nodes.length ≤ 255 ∧ (nodes.map (fun n => n.id)).Nodup ∧
    (∀ n ∈ nodes, ∀ p ∈ get_node_parents n, (nodesById nodes p).isSome) ∧
    topological_sort nodes = .ok sn.topo_order := by
  simp only [serialize_network] at h
  split at h
  next hgt => exact absurd h (by simp)
  next hle =>
    split at h
    next hdup => exact absurd h (by simp)
    next hnodup2 =>
      split at h
      next hunk => exact absurd h (by simp)
      next hknown2 =>
        rw [except_bind_ok] at h
        obtain ⟨topo, htopo, h⟩ := h
        split at h
        · exact absurd h (by simp)
        · rw [except_bind_ok] at h
          obtain ⟨buffer, hbuf, h⟩ := h
          simp only [Except.ok.injEq] at h
          have hnodup : (nodes.map (fun n => n.id)).Nodup := by
            apply (dedup_length_eq_iff _).mp
            simp only [Decidable.not_not] at hnodup2
            simpa using hnodup2
          have hknown : ∀ n ∈ nodes, ∀ p ∈ get_node_parents n,
              (nodesById nodes p).isSome := by
            intro n hn p hp
            by_contra hc
            apply hknown2
            refine List.any_eq_true.mpr ⟨n, hn, ?_⟩
            refine List.any_eq_true.mpr ⟨p, hp, ?_⟩
            cases hopt : nodesById nodes p with
            | none => simp [hopt]
            | some v =>
                rw [hopt] at hc
                simp at hc
          refine ⟨by omega, hnodup, hknown, ?_⟩
          rw [← h]
          exact htopo

/-- Lifting a sort error through the encoder once validation passes. -/
theorem serialize_network_error_of_sort (nodes : List Node) (e : EncodeError)
    (h255 : nodes.length ≤ 255)
    (hnodup : (nodes.map (fun n => n.id)).Nodup)
    (hknown : ∀ n ∈ nodes, ∀ p ∈ get_node_parents n, (nodesById nodes p).isSome)
    (htopo : topological_sort nodes = .error e) :
    serialize_network nodes = .error e := by
  simp only [serialize_network]
  rw [if_neg (by omega)]
  rw [if_neg (by
    have := (dedup_length_eq_iff (nodes.map (fun n => n.id))).mpr hnodup
    simp only [List.length_map] at this
    omega)]
  rw [if_neg (by
    intro hcontra
    obtain ⟨n, hn, hb⟩ := List.any_eq_true.mp hcontra
    obtain ⟨p, hp, hnone⟩ := List.any_eq_true.mp hb
    have hsome := hknown n hn p hp
    simp only [Option.isNone_iff_eq_none] at hnone
    rw [hnone] at hsome
    simp at hsome)]
  rw [htopo]
  rfl

/-- A duplicate-free list contained in another list is no longer than it. -/
theorem nodup_subset_length_le (l ids : List String) (hl : l.Nodup)
    (hsub : ∀ x ∈ l, x ∈ ids) : l.length ≤ ids.length := by
  have h1 : l.toFinset.card = l.length := List.toFinset_card_of_nodup hl
  have h2 : l.toFinset ⊆ ids.toFinset := by
    intro x hx
    rw [List.mem_toFinset] at *
    exact hsub x hx
  have h3 := Finset.card_le_card h2
  have h4 := ids.toFinset_card_le
  omega

/-- A duplicate-free list contained in a duplicate-free list of no greater
length exhausts it. -/
theorem mem_of_nodup_subset_length (l ids : List String) (hl : l.Nodup)
    (hids : ids.Nodup) (hsub : ∀ x ∈ l, x ∈ ids) (hlen : ids.length ≤ l.length) :
    ∀ x ∈ ids, x ∈ l := by
  have h1 : l.toFinset.card = l.length := List.toFinset_card_of_nodup hl
  have h2 : ids.toFinset.card = ids.length := List.toFinset_card_of_nodup hids
  have hss : l.toFinset ⊆ ids.toFinset := by
    intro x hx
    rw [List.mem_toFinset] at *
    exact hsub x hx
  have heq : l.toFinset = ids.toFinset :=
    Finset.eq_of_subset_of_card_le hss (by omega)
  intro x hx
  have : x ∈ ids.toFinset := List.mem_toFinset.mpr hx
  rw [← heq] at this
  exact List.mem_toFinset.mp this

/-- When every referenced parent is a node, every in-degree key names a
node. -/
theorem allKahnIds_are_nodes (nodes : List Node)
    (hknown : ∀ n ∈ nodes, ∀ p ∈ get_node_parents n, (nodesById nodes p).isSome) :
    ∀ x ∈ allKahnIds nodes, x ∈ nodes.map (fun n => n.id) := by
  intro x hx
  simp only [allKahnIds, List.mem_dedup, List.mem_flatMap] at hx
  obtain ⟨n, hn, hxn⟩ := hx
  rcases List.mem_cons.mp hxn with h | h
  · exact List.mem_map.mpr ⟨n, hn, h.symm⟩
  · have := hknown n hn x h
    cases hfind : nodesById nodes x with
    | none => rw [hfind] at this; simp at this
    | some m =>
        obtain ⟨hm, hmid⟩ := nodesById_mem nodes x m hfind
        exact List.mem_map.mpr ⟨m, hm, hmid⟩

theorem indexOf_lt_of_split (p x : String) :
    ∀ (l1 l2 : List String), (l1 ++ x :: l2).Nodup → p ∈ l1 →
      List.indexOf p (l1 ++ x :: l2) < List.indexOf x (l1 ++ x :: l2) := by
  intro l1
  induction l1 with
  | nil => intro l2 _ hp; simp at hp
  | cons a l1' ih =>
      intro l2 hnd hp
      rw [List.cons_append] at hnd ⊢
      simp only [List.nodup_cons] at hnd
      have hax : a ≠ x := by
        intro hc
        exact hnd.1 (by rw [hc]; simp)
      rcases List.mem_cons.mp hp with h | h
      · rw [← h] at hax ⊢
        rw [List.indexOf_cons_self, List.indexOf_cons_ne _ hax]
        omega
      · have hpa : a ≠ p := by
          intro hc
          apply hnd.1
          rw [hc]
          exact List.mem_append_left _ h
        rw [List.indexOf_cons_ne _ hpa, List.indexOf_cons_ne _ hax]
        have := ih l2 hnd.2 h
        omega

theorem chain_rank_le (nodes : List Node) (rank : String → Nat)
    (hrank : ∀ x y, parentEdge nodes x y → rank y < rank x) :
    ∀ (l : List String) (a : String), List.Chain (parentEdge nodes) a l →
      rank ((a :: l).getLast (List.cons_ne_nil a l)) ≤ rank a := by
  intro l
  induction l with
  | nil =>
      intro a _
      simp
  | cons b l' ih =>
      intro a hchain
      rw [List.chain_cons] at hchain
      have h1 := hrank a b hchain.1
      have h2 := ih b hchain.2
      have hgl : (a :: b :: l').getLast (List.cons_ne_nil a (b :: l')) =
          (b :: l').getLast (List.cons_ne_nil b l') := List.getLast_cons _
      rw [hgl]
      omega

/-! ## Claim theorems: topological order and cycles (C4) -/

/-- C4: whenever the encoder succeeds, the returned topological order places
every parent strictly before every child (first conjunct); and on an input
that passes the earlier validation stages but whose parent relation contains
a cycle (a nonempty chain of parent steps closing on itself), Kahn's
algorithm resolves strictly fewer ids than there are nodes and the encoder
fails with the cycle error (second conjunct). -/
theorem claim_C4_topological_order :
    (∀ (nodes : List Node) (sn : SerializedNetwork),
      serialize_network nodes = .ok sn →
      ∀ n ∈ nodes, ∀ p ∈ get_node_parents n,
        List.indexOf p sn.topo_order < List.indexOf n.id sn.topo_order) ∧
    (∀ nodes : List Node,
      nodes.length ≤ 255 →
      (nodes.map (fun n => n.id)).Nodup →
      (∀ n ∈ nodes, ∀ p ∈ get_node_parents n, (nodesById nodes p).isSome) →
      (∃ (a : String) (l : List String), List.Chain (parentEdge nodes) a l ∧
        parentEdge nodes ((a :: l).getLast (List.cons_ne_nil a l)) a) →
      (kahnRun nodes).length < nodes.length ∧
      serialize_network nodes = .error .cycleDetected) := by
  constructor
  · intro nodes sn h n hn p hp
    obtain ⟨h255, hnodup, hknown, htopo⟩ := serialize_network_ok_validation nodes sn h
    obtain ⟨hteq, htlen⟩ := topological_sort_ok_eq nodes sn.topo_order htopo
    obtain ⟨hRnd, hRsub, hD, _⟩ := kahnRun_facts nodes hnodup
    rw [← hteq] at hRnd hRsub hD
    have hids_sub : ∀ x ∈ sn.topo_order, x ∈ nodes.map (fun n => n.id) :=
      fun x hx => allKahnIds_are_nodes nodes hknown x (hRsub hx)
    have hmem := mem_of_nodup_subset_length sn.topo_order (nodes.map (fun n => n.id))
      hRnd hnodup hids_sub (by simp [htlen])
    have hnid : n.id ∈ sn.topo_order := hmem n.id (List.mem_map.mpr ⟨n, hn, rfl⟩)
    have hpar : p ∈ nodeParents nodes n.id := by
      rw [nodeParents, nodesById_of_mem nodes hnodup n hn]
      exact hp
    obtain ⟨l1, l2, hsplit, hpl1⟩ := hD n.id hnid p hpar
    rw [hsplit]
    exact indexOf_lt_of_split p n.id l1 l2 (hsplit ▸ hRnd) hpl1
  · intro nodes h255 hnodup hknown hcyc
    obtain ⟨hRnd, hRsub, hD, _⟩ := kahnRun_facts nodes hnodup
    have hids_sub : ∀ x ∈ kahnRun nodes, x ∈ nodes.map (fun n => n.id) :=
      fun x hx => allKahnIds_are_nodes nodes hknown x (hRsub hx)
    have hle : (kahnRun nodes).length ≤ nodes.length := by
      have := nodup_subset_length_le (kahnRun nodes) (nodes.map (fun n => n.id))
        hRnd hids_sub
      simpa using this
    have hlt : (kahnRun nodes).length < nodes.length := by
      rcases Nat.lt_or_ge (kahnRun nodes).length nodes.length with hl | hg
      · exact hl
      · exfalso
        have hmem := mem_of_nodup_subset_length (kahnRun nodes)
          (nodes.map (fun n => n.id)) hRnd hnodup hids_sub (by simpa using hg)
        have hrank : ∀ x y, parentEdge nodes x y →
            List.indexOf y (kahnRun nodes) < List.indexOf x (kahnRun nodes) := by
          intro x y hxy
          have hxr : x ∈ kahnRun nodes := by
            have hxy2 := hxy
            simp only [parentEdge, nodeParents] at hxy2
            cases hfind : nodesById nodes x with
            | none => rw [hfind] at hxy2; simp at hxy2
            | some m =>
                obtain ⟨hm, hmid⟩ := nodesById_mem nodes x m hfind
                exact hmem x (List.mem_map.mpr ⟨m, hm, hmid⟩)
          obtain ⟨l1, l2, hsplit, hpl1⟩ := hD x hxr y hxy
          rw [hsplit]
          exact indexOf_lt_of_split y x l1 l2 (hsplit ▸ hRnd) hpl1
        obtain ⟨a, l, hchain, hback⟩ := hcyc
        have hlast := chain_rank_le nodes (fun x => List.indexOf x (kahnRun nodes))
          hrank l a hchain
        have hstep := hrank _ _ hback
        simp only at hlast hstep
        omega
    exact ⟨hlt, serialize_network_error_of_sort nodes .cycleDetected h255 hnodup hknown
      (topological_sort_error_of_short nodes hlt)⟩

/-- Witness for C4: on the two-node success network the parent's index (0)
precedes the child's (1); on the two-node cycle `A→B→A` Kahn resolves 0 of 2
nodes and the encoder reports the cycle. -/
theorem claim_C4_topological_order_witness :
    (List.indexOf "A" (["A", "B"] : List String) <
      List.indexOf "B" (["A", "B"] : List String)) ∧
    (kahnRun [⟨"A", [⟨[("B", some true)], 1⟩]⟩, ⟨"B", [⟨[("A", some true)], 1⟩]⟩]).length <
      2 ∧
    serialize_network [⟨"A", [⟨[("B", some true)], 1⟩]⟩, ⟨"B", [⟨[("A", some true)], 1⟩]⟩] =
      .error .cycleDetected := by
  have h1 := claim_C4_topological_order.1
    [⟨"B", [⟨[("A", some true)], 0x3F000000⟩, ⟨[], 0x3E000000⟩]⟩,
      ⟨"A", [⟨[], 0x3F000000⟩]⟩]
    ⟨[0, 1, 0, 0, 0, 63, 1, 0, 2, 17, 0, 0, 0, 63, 0, 0, 0, 0, 62], ["A", "B"]⟩
    (by decide)
    ⟨"B", [⟨[("A", some true)], 0x3F000000⟩, ⟨[], 0x3E000000⟩]⟩ (by decide)
    "A" (by decide)
  have h2 := claim_C4_topological_order.2
    [⟨"A", [⟨[("B", some true)], 1⟩]⟩, ⟨"B", [⟨[("A", some true)], 1⟩]⟩]
    (by decide) (by decide) (by decide)
    ⟨"A", ["B"], List.Chain.cons (by decide) List.Chain.nil, by decide⟩
  exact ⟨h1, h2.1, h2.2⟩

theorem indexOf?_isSome_of_mem (x : String) :
    ∀ (l : List String), x ∈ l → (List.indexOf? x l).isSome := by
  intro l
  induction l with
  | nil => intro h; simp at h
  | cons y ys ih =>
      intro h
      rw [List.indexOf?_cons]
      by_cases hxy : (y == x) = true
      · simp [hxy]
      · rcases List.mem_cons.mp h with h1 | h1
        · exact absurd (by simp [h1]) hxy
        · simp only [if_neg hxy]
          simpa using ih h1

theorem mapM_pairs_isSome (f : String → Option Nat) :
    ∀ (pids : List String), (∀ p ∈ pids, (f p).isSome) →
      pids.mapM (fun id => match f id with
        | some idx => Except.ok (id, idx)
        | none => Except.error EncodeError.internal) =
        .ok (pids.map (fun p => (p, (f p).getD 0))) := by
  intro pids
  induction pids with
  | nil => intro _; simp [List.mapM_nil]; rfl
  | cons x xs ih =>
      intro hf
      rw [List.mapM_cons]
      cases hfx : f x with
      | none =>
          have := hf x (by simp)
          rw [hfx] at this
          simp at this
      | some idx =>
          have hrec := ih (fun p hp => hf p (by simp [hp]))
          rw [hrec]
          simp [hfx, Bind.bind, Except.bind, pure, Except.pure]

theorem serialize_node_ok_of (node : Node) (pids : List String) (f : String → Option Nat)
    (hf : ∀ p ∈ pids, (f p).isSome) (hp : pids.length ≤ 255)
    (he : node.cpt_entries.length ≤ 255) :
    serialize_node node pids f = .ok (nodeBytesSpecF f pids node) := by
  simp only [serialize_node]
  rw [mapM_pairs_isSome f pids hf]
  have hlen : ((List.insertionSort byTopoIdx
      (pids.map (fun p => (p, (f p).getD 0)))).map Prod.snd).length = pids.length := by
    rw [List.length_map, List.length_insertionSort, List.length_map]
  simp only [Bind.bind, Except.bind]
  rw [if_neg (by omega), if_neg (by omega)]
  simp [nodeBytesSpecF, encSortedPairsF, List.length_insertionSort]

theorem encodeFold_ok_of (nodes : List Node) (topo_all : List String) :
    ∀ (topo : List String) (acc : List Nat),
      (∀ id ∈ topo, ∃ node, nodesById nodes id = some node ∧
        serialize_node node (get_node_parents node)
          (fun i => List.indexOf? i topo_all) =
          .ok (nodeBytesSpecF (fun i => List.indexOf? i topo_all)
            (get_node_parents node) node)) →
      ∃ buffer, (topo.foldlM (fun (acc : List Nat) id =>
        match nodesById nodes id with
        | none => Except.error EncodeError.internal
        | some node => do
            let bytes ← serialize_node node (get_node_parents node)
              (fun id => List.indexOf? id topo_all)
            Except.ok (acc ++ bytes)) acc) = .ok buffer := by
  intro topo
  induction topo with
  | nil =>
      intro acc _
      exact ⟨acc, by simp [List.foldlM_nil]; rfl⟩
  | cons id rest ih =>
      intro acc hall
      obtain ⟨node, hid, hser⟩ := hall id (by simp)
      obtain ⟨buffer, hbuf⟩ := ih
        (acc ++ nodeBytesSpecF (fun i => List.indexOf? i topo_all)
          (get_node_parents node) node)
        (fun i hi => hall i (by simp [hi]))
      refine ⟨buffer, ?_⟩
      rw [List.foldlM_cons, hid]
      simp only [hser, Bind.bind, Except.bind]
      exact hbuf

/-! ## Claim theorems: capacity boundary (C7) -/

/-- C7: an otherwise-valid network of exactly 255 nodes (unique ids, all
parents present, at most 255 CPT entries per node, and an acyclic parent
relation — witnessed by a rank function that every parent edge strictly
decreases) encodes successfully; any input of 256 or more nodes fails with
`tooManyNodes` at the very first check. -/
theorem claim_C7_capacity_boundary :
    (∀ nodes : List Node,
      nodes.length = 255 →
      (nodes.map (fun n => n.id)).Nodup →
      (∀ n ∈ nodes, ∀ p ∈ get_node_parents n, (nodesById nodes p).isSome) →
      (∀ n ∈ nodes, n.cpt_entries.length ≤ 255) →
      (∃ rank : String → Nat, ∀ n ∈ nodes, ∀ p ∈ get_node_parents n, rank p < rank n.id) →
      ∃ sn, serialize_network nodes = .ok sn) ∧
    (∀ nodes : List Node, 256 ≤ nodes.length →
      serialize_network nodes = .error .tooManyNodes) := by
  constructor
  · intro nodes hlen hnodup hknown hent hex
    obtain ⟨rank, hrank⟩ := hex
    obtain ⟨hRnd, hRsub, hD, hUnres⟩ := kahnRun_facts nodes hnodup
    have hrankT : ∀ x y, y ∈ nodeParents nodes x → rank y < rank x := by
      intro x y hy
      simp only [nodeParents] at hy
      cases hfind : nodesById nodes x with
      | none => rw [hfind] at hy; simp at hy
      | some m =>
          rw [hfind] at hy
          obtain ⟨hm, hmid⟩ := nodesById_mem nodes x m hfind
          rw [← hmid]
          exact hrank m hm y hy
    have hall : ∀ (k : Nat) (x : String), rank x ≤ k → x ∈ allKahnIds nodes →
        x ∈ kahnRun nodes := by
      intro k
      induction k with
      | zero =>
          intro x hrk hx
          by_contra hc
          obtain ⟨p, hp, _⟩ := hUnres x hx hc
          have := hrankT x p hp
          omega
      | succ k ih =>
          intro x hrk hx
          by_contra hc
          obtain ⟨p, hp, hpR⟩ := hUnres x hx hc
          have hlt := hrankT x p hp
          have hpA := mem_nodeParents_allKahnIds nodes x p hp
          exact hpR (ih p (by omega) hpA)
    have hids_in : ∀ x ∈ nodes.map (fun n => n.id), x ∈ kahnRun nodes := by
      intro x hx
      obtain ⟨m, hm, hmid⟩ := List.mem_map.mp hx
      exact hall (rank x) x le_rfl (hmid ▸ mem_allKahnIds_of_node nodes m hm)
    have hids_sub : ∀ x ∈ kahnRun nodes, x ∈ nodes.map (fun n => n.id) :=
      fun x hx => allKahnIds_are_nodes nodes hknown x (hRsub hx)
    have hge : nodes.length ≤ (kahnRun nodes).length := by
      have := nodup_subset_length_le (nodes.map (fun n => n.id)) (kahnRun nodes)
        hnodup hids_in
      simpa using this
    have hle2 : (kahnRun nodes).length ≤ nodes.length := by
      have := nodup_subset_length_le (kahnRun nodes) (nodes.map (fun n => n.id))
        hRnd hids_sub
      simpa using this
    have htopo : topological_sort nodes = .ok (kahnRun nodes) := by
      simp only [topological_sort]
      rw [if_neg (by omega), if_neg (by omega)]
    have hparent_of_node : ∀ m ∈ nodes, ∀ p ∈ get_node_parents m,
        p ∈ nodes.map (fun n => n.id) := by
      intro m hm p hp
      have hpk := hknown m hm p hp
      cases hfind : nodesById nodes p with
      | none => rw [hfind] at hpk; simp at hpk
      | some q =>
          obtain ⟨hq, hqid⟩ := nodesById_mem nodes p q hfind
          exact List.mem_map.mpr ⟨q, hq, hqid⟩
    have hstep : ∀ id ∈ kahnRun nodes, ∃ node, nodesById nodes id = some node ∧
        serialize_node node (get_node_parents node)
          (fun i => List.indexOf? i (kahnRun nodes)) =
          .ok (nodeBytesSpecF (fun i => List.indexOf? i (kahnRun nodes))
            (get_node_parents node) node) := by
      intro id hid
      obtain ⟨m, hm, hmid⟩ := List.mem_map.mp (hids_sub id hid)
      refine ⟨m, by rw [← hmid]; exact nodesById_of_mem nodes hnodup m hm, ?_⟩
      apply serialize_node_ok_of
      · intro p hp
        have : p ∈ kahnRun nodes := hids_in p (hparent_of_node m hm p hp)
        exact indexOf?_isSome_of_mem p (kahnRun nodes) this
      · have := nodup_subset_length_le (get_node_parents m) (nodes.map (fun n => n.id))
          (get_node_parents_nodup m) (hparent_of_node m hm)
        simp only [List.length_map] at this
        omega
      · exact hent m hm
    obtain ⟨buffer, hbuf⟩ := encodeFold_ok_of nodes (kahnRun nodes) (kahnRun nodes) [] hstep
    refine ⟨⟨buffer, kahnRun nodes⟩, ?_⟩
    simp only [serialize_network]
    rw [if_neg (by omega)]
    rw [if_neg (by
      have := (dedup_length_eq_iff (nodes.map (fun n => n.id))).mpr hnodup
      simp only [List.length_map] at this
      omega)]
    rw [if_neg (by
      intro hcontra
      obtain ⟨n, hn, hb⟩ := List.any_eq_true.mp hcontra
      obtain ⟨p, hp, hnone⟩ := List.any_eq_true.mp hb
      have hsome := hknown n hn p hp
      simp only [Option.isNone_iff_eq_none] at hnone
      rw [hnone] at hsome
      simp at hsome)]
    rw [htopo, except_ok_bind]
    rw [if_neg (by omega)]
    simp only [hbuf, except_ok_bind]
  · intro nodes h
    simp only [serialize_network]
    rw [if_pos (by omega)]

set_option maxRecDepth 10000 in
/-- Witness for C7: a concrete 255-node parentless network encodes
successfully, and 256 copies of one node trip `tooManyNodes`. -/
theorem claim_C7_capacity_boundary_witness :
    (∃ sn, serialize_network nodes255 = .ok sn) ∧
    serialize_network (List.replicate 256 ⟨"x", []⟩) = .error .tooManyNodes := by
  have hshape : ∀ n ∈ nodes255, get_node_parents n = [] ∧ n.cpt_entries.length = 1 := by
    intro n hn
    obtain ⟨i, _, rfl⟩ := List.mem_map.mp hn
    constructor
    · rfl
    · rfl
  constructor
  · apply claim_C7_capacity_boundary.1
    · simp [nodes255]
    · have hmap : nodes255.map (fun n => n.id) =
          (List.range 255).map (fun i => String.mk [Char.ofNat (65 + i)]) := by
        simp [nodes255, List.map_map]
      rw [hmap]
      apply List.Nodup.map_on
      · intro i hi j hj heq
        have hval : ∀ k, k ∈ List.range 255 →
            (Char.ofNat (65 + k)).toNat = 65 + k := by
          decide
        have h1 := hval i hi
        have h2 := hval j hj
        have : (Char.ofNat (65 + i)).toNat = (Char.ofNat (65 + j)).toNat := by
          rw [show Char.ofNat (65 + i) = Char.ofNat (65 + j) from by
            have := congrArg (fun s => s.data.headD 'a') heq
            simpa using this]
        omega
      · exact List.nodup_range 255
    · intro n hn p hp
      rw [(hshape n hn).1] at hp
      simp at hp
    · intro n hn
      rw [(hshape n hn).2]
      omega
    · refine ⟨fun _ => 0, ?_⟩
      intro n hn p hp
      rw [(hshape n hn).1] at hp
      simp at hp
  · apply claim_C7_capacity_boundary.2
    rw [List.length_replicate]

/-! ## Claim theorems: validation ordering (C6) -/

/-- C6: `serialize_network` performs its validation checks in the fixed order
too-many-nodes, duplicate ids, unknown parent, cycle; the first failing check
determines the error, so in particular an input with both a duplicate id and
an unknown parent fails with `duplicateId` (second conjunct: no assumption at
all about parents or cycles), and an unknown parent beats a cycle (third
conjunct: no acyclicity assumption). -/
theorem claim_C6_validation_order :
    (∀ nodes : List Node, 255 < nodes.length →
      serialize_network nodes = .error .tooManyNodes) ∧
    (∀ nodes : List Node, nodes.length ≤ 255 →
      ¬ (nodes.map (fun n => n.id)).Nodup →
      serialize_network nodes = .error .duplicateId) ∧
    (∀ nodes : List Node, nodes.length ≤ 255 →
      (nodes.map (fun n => n.id)).Nodup →
      (∃ n ∈ nodes, ∃ p ∈ get_node_parents n, nodesById nodes p = none) →
      serialize_network nodes = .error .unknownParent) ∧
    (∀ nodes : List Node, nodes.length ≤ 255 →
      (nodes.map (fun n => n.id)).Nodup →
      (∀ n ∈ nodes, ∀ p ∈ get_node_parents n, (nodesById nodes p).isSome) →
      topological_sort nodes = .error .cycleDetected →
      serialize_network nodes = .error .cycleDetected) := by
  have hdup : ∀ nodes : List Node, (nodes.map (fun n => n.id)).Nodup →
      ¬ ((nodes.map (fun n => n.id)).dedup.length ≠ nodes.length) := by
    intro nodes h
    have := (dedup_length_eq_iff (nodes.map (fun n => n.id))).mpr h
    simp only [List.length_map] at this
    omega
  refine ⟨?_, ?_, ?_, ?_⟩
  · intro nodes h
    simp only [serialize_network]
    rw [if_pos h]
  · intro nodes h255 hdupl
    simp only [serialize_network]
    rw [if_neg (by omega), if_pos]
    intro heq
    have : (nodes.map (fun n => n.id)).Nodup := by
      apply (dedup_length_eq_iff _).mp
      simpa using heq
    exact hdupl this
  · intro nodes h255 hnodup hviol
    obtain ⟨n, hn, p, hp, hnone⟩ := hviol
    simp only [serialize_network]
    rw [if_neg (by omega), if_neg (hdup nodes hnodup), if_pos]
    refine List.any_eq_true.mpr ⟨n, hn, ?_⟩
    refine List.any_eq_true.mpr ⟨p, hp, ?_⟩
    simp [hnone]
  · intro nodes h255 hnodup hknown htopo
    simp only [serialize_network]
    rw [if_neg (by omega), if_neg (hdup nodes hnodup), if_neg]
    · rw [htopo]
      rfl
    · intro hcontra
      obtain ⟨n, hn, hb⟩ := List.any_eq_true.mp hcontra
      obtain ⟨p, hp, hnone⟩ := List.any_eq_true.mp hb
      have hsome := hknown n hn p hp
      simp only [Option.isNone_iff_eq_none] at hnone
      rw [hnone] at hsome
      simp at hsome

/-- Witness for C6 at concrete inputs: 256 nodes trip `tooManyNodes`; a
duplicated id beats an unknown parent; an unknown parent beats a cycle; a
pure two-node cycle gives `cycleDetected`. -/
theorem claim_C6_validation_order_witness :
    serialize_network (List.replicate 256 ⟨"x", []⟩) = .error .tooManyNodes ∧
    serialize_network [⟨"X", [⟨[("ZZZ", some true)], 1⟩]⟩, ⟨"X", []⟩] =
      .error .duplicateId ∧
    serialize_network [⟨"A", [⟨[("ZZZ", some true)], 1⟩]⟩] = .error .unknownParent ∧
    serialize_network [⟨"A", [⟨[("B", some true)], 1⟩]⟩, ⟨"B", [⟨[("A", some true)], 1⟩]⟩] =
      .error .cycleDetected := by
  refine ⟨?_, ?_, ?_, ?_⟩
  · refine claim_C6_validation_order.1 _ ?_
    rw [List.length_replicate]
    omega
  · exact claim_C6_validation_order.2.1 _ (by decide) (by decide)
  · exact claim_C6_validation_order.2.2.1 _ (by decide) (by decide)
      ⟨⟨"A", [⟨[("ZZZ", some true)], 1⟩]⟩, by decide, "ZZZ", by decide, by decide⟩
  · exact claim_C6_validation_order.2.2.2 _ (by decide) (by decide) (by decide) (by decide)

/-! ## Claim theorems: empty-ancestor sensitivity (C8) -/

/-- C8: when the target exists and its transitive ancestor set is empty, the
sensitivity query returns the empty mapping having consumed zero random
draws (no sampling pass is ever started). -/
theorem claim_C8_root_sensitivity_empty :
    ∀ (nodes : List Node) (target : String) (num_samples : Nat) (stream : Nat → Bool),
      nodes.any (fun n => n.id = target) = true →
      get_ancestors nodes target = [] →
      compute_sensitivity nodes target num_samples stream = .ok ([], 0) := by
  intro nodes target num_samples stream hmem hanc
  simp [compute_sensitivity, hmem, hanc]

/-- Witness for C8: a single parentless node queried as its own target. -/
theorem claim_C8_root_sensitivity_empty_witness :
    compute_sensitivity [⟨"A", [⟨[], 0x3F000000⟩]⟩] "A" 1000 (fun _ => true) =
      .ok ([], 0) :=
  claim_C8_root_sensitivity_empty _ _ _ _ (by decide) (by decide)

/-! ## Claim theorems: unvalidated probability panics the sampler (C10) -/

/-- C10: a single-node network whose only CPT entry carries the `f32` bit
pattern 0x40000000 (the value 2.0, outside [0.0, 1.0]) is accepted verbatim
by `serialize_network` — no stage validates the probability range — and a
sampling pass over the resulting buffer hits `rand`'s `random_bool` panic
(modelled by the `randomBoolPanic` outcome) instead of returning an
error. -/
theorem claim_C10_unvalidated_probability_panics :
    serialize_network [⟨"a", [⟨[], 0x40000000⟩]⟩] =
      .ok ⟨[0, 1, 0, 0, 0, 64], ["a"]⟩ ∧
    randomBoolPanics 0x40000000 = true ∧
    sample [0, 1, 0, 0, 0, 64] 1 none ⟨fun _ => false, 0⟩ =
      .error .randomBoolPanic := by
  refine ⟨by decide, by decide, ?_⟩
  rfl

/-! ## Claim theorems: interventional marginals (C9) -/

/-- Counterexample for C9: no exported entry point ever returns two
probability maps.  Both `compute_marginals` and `compute_sensitivity`
serialize exactly one node-keyed map back to the host, so no successful
`apiRun` response carries both a forced-true and a forced-false marginal
map. -/
theorem claim_C9_no_both_maps_counterexample :
    ¬ ∃ (req : ApiRequest) (g : Nat → Bool) (resp : ApiResponse),
      apiRun req g = .ok resp ∧ resp.mapsCount = 2 := by
  rintro ⟨req, g, resp, -, h2⟩
  cases resp
  simp [ApiResponse.mapsCount] at h2

/-- C9 (amended): the forced-true/forced-false machinery lives inside the
sensitivity query, not as a standalone interventional-marginals query.  Every
row produced by the per-ancestor loop `sensitivityRows` is the difference
`prob_true - prob_false` of two sequential (rng-threaded, hence not
independent) batches of `compute_intervention_prob` on that ancestor, over
the network encoded once; only this one difference map is returned. -/
theorem claim_C9_per_ancestor_sequential_batches :
    ∀ (data : List Nat) (num_nodes : Nat) (topo : List String)
      (target_idx ns : Nat) (target : String) (nodes : List Node) (g : RngState)
      (rows : List (String × Rat)) (gEnd : RngState),
      sensitivityRows data num_nodes topo target_idx ns target nodes g =
        .ok (rows, gEnd) →
      ∀ r ∈ rows, ∃ node ∈ nodes, node.id ≠ target ∧
        ∃ (aidx : Nat) (g0 g1 g2 : RngState) (pt pf : Rat),
          List.indexOf? node.id topo = some aidx ∧
          compute_intervention_prob data num_nodes target_idx ns aidx true g0 =
            .ok (pt, g1) ∧
          compute_intervention_prob data num_nodes target_idx ns aidx false g1 =
            .ok (pf, g2) ∧
          r = (node.id, pt - pf) := by
  intro data num_nodes topo target_idx ns target nodes
  induction nodes with
  | nil =>
      intro g rows gEnd h r hr
      simp only [sensitivityRows, Except.ok.injEq, Prod.mk.injEq] at h
      rw [← h.1] at hr
      simp at hr
  | cons node rest ih =>
      intro g rows gEnd h r hr
      by_cases heq : node.id = target
      · simp only [sensitivityRows, if_pos heq] at h
        obtain ⟨node', hmem, hrest⟩ := ih g rows gEnd h r hr
        exact ⟨node', List.mem_cons_of_mem _ hmem, hrest⟩
      · simp only [sensitivityRows, if_neg heq] at h
        cases hidx : List.indexOf? node.id topo with
        | none =>
            simp only [hidx] at h
            exact absurd h (by simp)
        | some aidx =>
            simp only [hidx] at h
            cases hpt : compute_intervention_prob data num_nodes target_idx ns
                aidx true g with
            | error e =>
                simp only [hpt] at h
                exact absurd h (by simp [Bind.bind, Except.bind])
            | ok p1 =>
                obtain ⟨pt, g1⟩ := p1
                simp only [hpt, except_ok_bind] at h
                cases hpf : compute_intervention_prob data num_nodes target_idx ns
                    aidx false g1 with
                | error e =>
                    simp only [hpf] at h
                    exact absurd h (by simp [Bind.bind, Except.bind])
                | ok p2 =>
                    obtain ⟨pf, g2⟩ := p2
                    simp only [hpf, except_ok_bind] at h
                    cases htl : sensitivityRows data num_nodes topo target_idx ns
                        target rest g2 with
                    | error e =>
                        simp only [htl] at h
                        exact absurd h (by simp [Bind.bind, Except.bind])
                    | ok p3 =>
                        obtain ⟨tl, g3⟩ := p3
                        simp only [htl, except_ok_bind] at h
                        simp only [Except.ok.injEq, Prod.mk.injEq] at h
                        rw [← h.1] at hr
                        rcases List.mem_cons.mp hr with hhead | htail
                        · exact ⟨node, List.mem_cons_self _ _, heq,
                            aidx, g, g1, g2, pt, pf, hidx, hpt, hpf, hhead⟩
                        · obtain ⟨node', hmem, hrest⟩ :=
                            ih g2 tl g3 htl r htail
                          exact ⟨node', List.mem_cons_of_mem _ hmem, hrest⟩

/-- Witness for C9 (amended): one ancestor node "A" below target "B"; with
zero samples per batch both intervention probabilities are 0 and the loop
emits the single row ("A", 0). -/
theorem claim_C9_per_ancestor_sequential_batches_witness :
    ∃ node ∈ ([⟨"A", []⟩] : List Node), node.id ≠ "B" ∧
      ∃ (aidx : Nat) (g0 g1 g2 : RngState) (pt pf : Rat),
        List.indexOf? node.id ["B", "A"] = some aidx ∧
        compute_intervention_prob [] 0 0 0 aidx true g0 = .ok (pt, g1) ∧
        compute_intervention_prob [] 0 0 0 aidx false g1 = .ok (pf, g2) ∧
        (("A", (0 : Rat)) : String × Rat) = (node.id, pt - pf) := by
  apply claim_C9_per_ancestor_sequential_batches [] 0 ["B", "A"] 0 0 "B"
    [⟨"A", []⟩] ⟨fun _ => true, 0⟩ [("A", 0)] ⟨fun _ => true, 0⟩
  · simp [sensitivityRows, compute_intervention_prob, runBatch, List.indexOf?,
      except_ok_bind]
  · simp

end WasmInference
